import Mathlib

set_option maxHeartbeats 1000000
set_option maxRecDepth 100000

/-!
Verification of the bytesize library: a formatter from u64 byte counts to
SI-prefixed strings and a parser from such strings back to u64 values.
Machine integers are modelled as Nat with explicit 2 ^ 64 bounds wherever the
Rust code uses checked u64 arithmetic; byte strings are modelled as List Nat
of ASCII byte values.
-/

namespace ByteSizeVerif

/-- The u64 overflow bound: checked u64 arithmetic fails at this value. -/
def U64 : Nat := 2 ^ 64

/-- ASCII digit test, mirrors the Rust range pattern for bytes 48..=57. -/
def isDigitB (c : Nat) : Bool := decide (48 ≤ c ∧ c ≤ 57)

/-- Errors of ByteSize::from_str (ParseByteSizeError in the source). -/
inductive ParseByteSizeError
  | Empty
  | InvalidNumber
  | InvalidUnits
  | Overflow
deriving DecidableEq

/-- Scale index of a unit letter, case folded by clearing bit 0x20
(so the mask is 0xDF = 223), as in the source function that maps
K, M, G, T, P, E, Z, Y to 1..8 and everything else to none. -/
def parsePrefixLetter (pfx : Nat) : Option Nat :=
  match pfx &&& 223 with
  | 75 => some 1
  | 77 => some 2
  | 71 => some 3
  | 84 => some 4
  | 80 => some 5
  | 69 => some 6
  | 90 => some 7
  | 89 => some 8
  | _ => none

/-- The numeric scan of from_str: walk the bytes, accepting digits and at
most one point (byte 46); a second point is InvalidNumber; the first other
byte ends the numeric portion.  Returns the index of the point, if any, and
the index where the numeric portion ends.  The counter n is the current
index; the initial call is with n = 0 and no point seen. -/
def findNum : List Nat → Nat → Option Nat → Except ParseByteSizeError (Option Nat × Nat)
  | [], n, pt => .ok (pt, n)
  | c :: rest, n, pt =>
    if isDigitB c then findNum rest (n + 1) pt
    else if c = 46 then
      match pt with
      | some _ => .error .InvalidNumber
      | none => findNum rest (n + 1) (some n)
    else .ok (pt, n)

/-- Index of the first byte that is not a space (32) and not a tab (9);
mirrors the iterator position call in the source. -/
def posNonSpace : List Nat → Option Nat
  | [] => none
  | c :: rest =>
    if c = 32 ∨ c = 9 then (posNonSpace rest).map (· + 1) else some 0

/-- The whitespace skip of from_str.  Note that when every byte of units is
a space or tab the position is none and units is kept unchanged, exactly as
in the source match. -/
def skipSpaces (units : List Nat) : List Nat :=
  match posNonSpace units with
  | none => units
  | some n => units.drop n

/-- Strip one trailing b (98) or B (66), mirroring the split_last match of
the source. -/
def stripB (units : List Nat) : List Nat :=
  match units.getLast? with
  | some c => if c = 98 ∨ c = 66 then units.dropLast else units
  | none => units

/-- The integer-digit walk of the decimal branch: consume digits while
idig is positive, accumulating v with checked multiply by 10 and checked
add of the digit value (byte AND 15); skip the point byte; once idig
reaches 0 the remaining bytes are the fractional part.  Returns the
accumulator, the fractional byte suffix, and the leftover idig count. -/
def accumInt : List Nat → Nat → Nat → Except ParseByteSizeError (Nat × List Nat × Nat)
  | [], idig, v => .ok (v, [], idig)
  | c :: rest, idig, v =>
    if c = 46 then accumInt rest idig v
    else if idig = 0 then .ok (v, c :: rest, 0)
    else if v * 10 < U64 then
      if v * 10 + (c &&& 15) < U64 then accumInt rest (idig - 1) (v * 10 + (c &&& 15))
      else .error .Overflow
    else .error .Overflow

/-- The padding loop of the decimal branch: multiply by 10, checked, once
per leftover integer digit position. -/
def padZ : Nat → Nat → Except ParseByteSizeError Nat
  | 0, v => .ok v
  | k + 1, v => if v * 10 < U64 then padZ k (v * 10) else .error .Overflow

/-- The round-to-even step of the decimal branch on the fractional byte
suffix: round up when the first fractional digit exceeds 5; never when it
is below 5; on an exact 5, round up when the accumulator is odd or some
later fractional digit is nonzero.  The round-up is a checked increment. -/
def roundEven (frac : List Nat) (v : Nat) : Except ParseByteSizeError Nat :=
  match frac with
  | [] => .ok v
  | c :: rest =>
    let roundUp :=
      if 53 < c then true
      else if c < 53 then false
      else if v % 2 = 1 then true
      else rest.any (fun d => !(d == 48))
    if roundUp then
      if v + 1 < U64 then .ok (v + 1) else .error .Overflow
    else .ok v

/-- The decimal computation after the integer-digit count idig has been
fixed: digit walk, padding, rounding, in the order of the source. -/
def decTail (num : List Nat) (idig v : Nat) : Except ParseByteSizeError Nat :=
  match accumInt num idig v with
  | .error e => .error e
  | .ok (v', frac, left) =>
    match padZ left v' with
    | .error e => .error e
    | .ok v'' => roundEven frac v''

/-- The decimal branch of from_str: the digit count left of the effective
decimal point is the point index (or the full numeric length) plus three
per SI scale step. -/
def decimalCompute (num : List Nat) (pt : Option Nat) (scale : Nat) :
    Except ParseByteSizeError Nat :=
  let idigits := (match pt with | some x => x | none => num.length) + 3 * scale
  decTail num idigits 0

/-- Modelled from the spec: acceptance of the f64 text parse used by the
binary branch, which fails with InvalidNumber on malformed text.  The
numeric portion reaching it consists of digits and at most one point, and
the float grammar accepts such text exactly when it contains at least one
digit (in particular the empty string is rejected). -/
def f64AcceptsNum (num : List Nat) : Bool := num.any isDigitB

/-- Result of a successful parse.  The decimal branch produces an exact
u64 value; the binary branch computes its value through 64-bit floating
point, which this embedding does not model, so it is recorded as the
numeric text together with the scale index. -/
inductive ParseOutcome
  | val (v : Nat)
  | binF64 (num : List Nat) (scale : Nat)
deriving DecidableEq

/-- ByteSize::from_str over byte lists.  Scan the numeric portion, skip
spaces, strip a trailing b or B, read the optional unit letter and the
optional binary marker i or I, then run the decimal computation (or hand
off to the floating-point path in binary mode). -/
def from_str (src : List Nat) : Except ParseByteSizeError ParseOutcome :=
  match findNum src 0 none with
  | .error e => .error e
  | .ok (pt, numEnd) =>
    let num := src.take numEnd
    let units := stripB (skipSpaces (src.drop numEnd))
    match units with
    | [] =>
      match decimalCompute num pt 0 with
      | .error e => .error e
      | .ok v => .ok (.val v)
    | c :: rest =>
      if rest = [105] ∨ rest = [73] then
        match parsePrefixLetter c with
        | none => .error .InvalidUnits
        | some scale =>
          if f64AcceptsNum num then .ok (.binF64 num scale)
          else .error .InvalidNumber
      else if rest = [] then
        match parsePrefixLetter c with
        | none => .error .InvalidUnits
        | some scale =>
          match decimalCompute num pt scale with
          | .error e => .error e
          | .ok v => .ok (.val v)
      else .error .InvalidUnits

/-- Byte list of a string literal (ASCII code points). -/
def strBytes (s : String) : List Nat := s.toList.map Char.toNat

/-- Modelled from the spec: decimal digit bytes of an unsigned integer as
emitted by the standard integer formatting of the display code.  The fuel
argument only drives the recursion; it is adequate whenever n is below
10 to the fuel. -/
def natDigitsFuel : Nat → Nat → List Nat
  | 0, _ => []
  | fuel + 1, n =>
    if n < 10 then [48 + n]
    else natDigitsFuel fuel (n / 10) ++ [48 + n % 10]

/-- Decimal digit bytes of n (most significant first). -/
def natRepr (n : Nat) : List Nat := natDigitsFuel (n + 1) n

/-- Two-digit zero-padded decimal bytes, as produced by the 02 width
format of the display code (its argument is always below 100). -/
def pad2 (n : Nat) : List Nat := if n < 10 then 48 :: natRepr n else natRepr n

/-- The prefix letter table kMGTPE of the display code. -/
def PREFIXES : List Nat := [107, 77, 71, 84, 80, 69]

/-- Table lookup; the display code indexes the table directly, so the
default byte 63 is never produced for in-range indices. -/
def pfxByte (p : Nat) : Nat := PREFIXES.getD p 63

/-- The division loop of the display code: repeatedly divide by 1000 until
the quotient is below 1000, remembering the last remainder (millis), the
number of extra iterations (the prefix index), and whether every remainder
before the final division was zero (is_exact). -/
def divLoop (pfx units : Nat) (ex : Bool) : Nat × Nat × Nat × Bool :=
  let millis := units % 1000
  let units' := units / 1000
  if units' < 1000 then (pfx, units', millis, ex)
  else divLoop (pfx + 1) units' (ex && (millis == 0))
termination_by units
decreasing_by omega

/-- The Display implementation for ByteSize over byte lists.  Values below
1000 print exactly; otherwise the division loop fixes units, millis and the
prefix, and one of three digit layouts is chosen by the magnitude of units,
each applying round-half-to-even with ties broken upward when the loop
discarded a nonzero remainder.  Byte 46 is the point, 32 the space, 66 the
letter B. -/
def toDisplayBytes (size : Nat) : List Nat :=
  if size < 1000 then natRepr size ++ [32, 66]
  else
    match divLoop 0 size true with
    | (pfx, units, millis, ex) =>
      if units < 10 then
        let frac := millis / 10
        let rem := millis % 10
        if 5 < rem ∨ (rem = 5 ∧ (frac % 2 = 1 ∨ ex = false)) then
          if frac + 1 = 100 then
            if units + 1 = 10 then [49, 48, 46, 48, 32, pfxByte pfx, 66]
            else natRepr (units + 1) ++ [46] ++ pad2 0 ++ [32, pfxByte pfx, 66]
          else natRepr units ++ [46] ++ pad2 (frac + 1) ++ [32, pfxByte pfx, 66]
        else natRepr units ++ [46] ++ pad2 frac ++ [32, pfxByte pfx, 66]
      else if units < 100 then
        let frac := millis / 100
        let rem := millis % 100
        if 50 < rem ∨ (rem = 50 ∧ (frac % 2 = 1 ∨ ex = false)) then
          if frac + 1 = 10 then
            if units + 1 = 100 then [49, 48, 48, 32, pfxByte pfx, 66]
            else natRepr (units + 1) ++ [46, 48, 32, pfxByte pfx, 66]
          else natRepr units ++ [46] ++ natRepr (frac + 1) ++ [32, pfxByte pfx, 66]
        else natRepr units ++ [46] ++ natRepr frac ++ [32, pfxByte pfx, 66]
      else
        let units' :=
          if 500 < millis ∨ (millis = 500 ∧ (units % 2 = 1 ∨ ex = false)) then units + 1
          else units
        if 1000 ≤ units' then [49, 46, 48, 48, 32, pfxByte (pfx + 1), 66]
        else natRepr units' ++ [32, pfxByte pfx, 66]

instance {ε α : Type} [DecidableEq ε] [DecidableEq α] : DecidableEq (Except ε α) := fun
  | .error a, .error b =>
    if h : a = b then .isTrue (by rw [h]) else .isFalse (by simp [h])
  | .error _, .ok _ => .isFalse (by simp)
  | .ok _, .error _ => .isFalse (by simp)
  | .ok a, .ok b =>
    if h : a = b then .isTrue (by rw [h]) else .isFalse (by simp [h])

/-- Value of a list of decimal digit bytes, read most significant first,
using the same byte AND 15 digit extraction as the parser. -/
def natOfDigits (D : List Nat) : Nat := D.foldl (fun a c => a * 10 + (c &&& 15)) 0

/-- The digit bytes of a numeric portion (the point byte removed). -/
def digitsOf (num : List Nat) : List Nat := num.filter isDigitB

/-- Number of digit bytes before the point byte (all of them when there is
no point): the integer-part length of the numeric portion. -/
def intLen (num : List Nat) : Nat := (num.takeWhile (fun c => !(c == 46))).length

/-- Number of digit bytes after the point byte. -/
def fracLen (num : List Nat) : Nat := (digitsOf num).length - intLen num

/-- Exact rational value denoted by a numeric portion (digit bytes with at
most one point byte). -/
def numValQ (num : List Nat) : ℚ := (natOfDigits (digitsOf num) : ℚ) / 10 ^ fracLen num

/-- Round half to even on the nonnegative rationals: take the floor, then
round up when the fractional part exceeds one half, keep the floor when it
is below one half, and on an exact half round to the even neighbour. -/
def rheQ (q : ℚ) : Nat :=
  let n := Nat.floor q
  let f : ℚ := q - n
  if 1 / 2 < f then n + 1
  else if f < 1 / 2 then n
  else if n % 2 = 1 then n + 1 else n

/-- The residual rational value handled by decTail: the accumulator v
joined with the remaining digit bytes, with idig digit positions left of
the effective decimal point remaining. -/
def qval (nm : List Nat) (idig v : Nat) : ℚ :=
  ((v * 10 ^ (digitsOf nm).length + natOfDigits (digitsOf nm) : ℕ) : ℚ) *
    10 ^ idig / 10 ^ (digitsOf nm).length

/-- Well-formed numeric portion: digit bytes with at most one point byte. -/
def numWF (num : List Nat) : Prop :=
  (∀ c ∈ num, isDigitB c = true ∨ c = 46) ∧ num.count 46 ≤ 1

/-- All bytes are spaces or tabs. -/
def allSpace (sp : List Nat) : Prop := ∀ c ∈ sp, c = 32 ∨ c = 9

/-- The optional unit-letter segment: either absent with scale zero, or a
single byte that parse_prefix maps to the given scale. -/
def PfxOk (P : List Nat) (scale : Nat) : Prop :=
  (P = [] ∧ scale = 0) ∨ ∃ l, l < 256 ∧ parsePrefixLetter l = some scale ∧ P = [l]

/-- The optional trailing byte b or B. -/
def BOk (B : List Nat) : Prop := B = [] ∨ B = [98] ∨ B = [66]

/-- All bytes of the list are decimal digits. -/
def allDigits (D : List Nat) : Prop := ∀ c ∈ D, isDigitB c = true

instance (D : List Nat) : Decidable (allDigits D) := by unfold allDigits; infer_instance

instance (num : List Nat) : Decidable (numWF num) := by unfold numWF; infer_instance

instance (sp : List Nat) : Decidable (allSpace sp) := by unfold allSpace; infer_instance

instance (B : List Nat) : Decidable (BOk B) := by unfold BOk; infer_instance

/-- Result of an exact checked computation: the value when it fits in u64,
Overflow otherwise. -/
def mkRes (x : Nat) : Except ParseByteSizeError Nat :=
  if x < U64 then .ok x else .error .Overflow

/-- Invariant of the digit walk: the remaining numeric bytes are digits
with at most one point byte still ahead, and when a point is ahead, at
least as many integer digit positions remain as there are digits before
it. -/
def NumTail (nm : List Nat) (idig : Nat) : Prop :=
  (∃ A B, nm = A ++ 46 :: B ∧ allDigits A ∧ allDigits B ∧ A.length ≤ idig) ∨ allDigits nm

/-! ### Digit byte arithmetic -/

theorem isDigitB_iff {c : Nat} : isDigitB c = true ↔ 48 ≤ c ∧ c ≤ 57 := by
  simp [isDigitB]

theorem digit_and15 {c : Nat} (h : isDigitB c = true) : c &&& 15 = c - 48 := by
  rw [isDigitB_iff] at h
  obtain ⟨h1, h2⟩ := h
  interval_cases c <;> decide

theorem digit_and15_le {c : Nat} (h : isDigitB c = true) : c &&& 15 ≤ 9 := by
  rw [isDigitB_iff] at h
  obtain ⟨h1, h2⟩ := h
  interval_cases c <;> decide

theorem digit_of_add48 {d : Nat} (h : d ≤ 9) : isDigitB (48 + d) = true := by
  rw [isDigitB_iff]; omega

theorem and15_add48 {d : Nat} (h : d ≤ 9) : (48 + d) &&& 15 = d := by
  interval_cases d <;> decide

/-! ### Values of digit strings -/

theorem natOfDigits_from (D : List Nat) :
    ∀ a : Nat, D.foldl (fun a c => a * 10 + (c &&& 15)) a =
      a * 10 ^ D.length + natOfDigits D := by
  induction D with
  | nil => intro a; simp [natOfDigits]
  | cons c rest ih =>
    intro a
    simp only [List.foldl_cons, List.length_cons, natOfDigits]
    rw [ih (a * 10 + (c &&& 15)), ih (0 * 10 + (c &&& 15))]
    ring

theorem natOfDigits_nil : natOfDigits [] = 0 := rfl

theorem natOfDigits_cons (c : Nat) (D : List Nat) :
    natOfDigits (c :: D) = (c &&& 15) * 10 ^ D.length + natOfDigits D := by
  simpa [natOfDigits] using natOfDigits_from D (c &&& 15)

theorem natOfDigits_append (X Y : List Nat) :
    natOfDigits (X ++ Y) = natOfDigits X * 10 ^ Y.length + natOfDigits Y := by
  simp only [natOfDigits, List.foldl_append]
  rw [natOfDigits_from Y]
  rfl

theorem natOfDigits_lt (D : List Nat) (h : allDigits D) :
    natOfDigits D < 10 ^ D.length := by
  induction D with
  | nil => simp [natOfDigits]
  | cons c rest ih =>
    have hc : c &&& 15 ≤ 9 := digit_and15_le (h c (by simp))
    have hr : natOfDigits rest < 10 ^ rest.length :=
      ih (fun x hx => h x (by simp [hx]))
    rw [natOfDigits_cons]
    have : (c &&& 15) * 10 ^ rest.length ≤ 9 * 10 ^ rest.length :=
      Nat.mul_le_mul_right _ hc
    calc (c &&& 15) * 10 ^ rest.length + natOfDigits rest
        < (c &&& 15) * 10 ^ rest.length + 10 ^ rest.length := by omega
      _ ≤ 9 * 10 ^ rest.length + 10 ^ rest.length := by omega
      _ = 10 ^ (rest.length + 1) := by ring
      _ = 10 ^ (c :: rest).length := by simp

theorem natOfDigits_eq_zero_iff (D : List Nat) (h : allDigits D) :
    natOfDigits D = 0 ↔ ∀ c ∈ D, c = 48 := by
  induction D with
  | nil => simp [natOfDigits]
  | cons c rest ih =>
    have hc := h c (by simp)
    have hrest := ih (fun x hx => h x (by simp [hx]))
    rw [natOfDigits_cons]
    constructor
    · intro h0
      have h1 : (c &&& 15) * 10 ^ rest.length = 0 := by omega
      have h2 : natOfDigits rest = 0 := by omega
      have hpow : 0 < 10 ^ rest.length := Nat.pos_pow_of_pos _ (by norm_num)
      have hc15 : c &&& 15 = 0 := by
        rcases Nat.mul_eq_zero.mp h1 with h' | h'
        · exact h'
        · omega
      rw [digit_and15 hc] at hc15
      rw [isDigitB_iff] at hc
      intro x hx
      rcases List.mem_cons.mp hx with rfl | hx'
      · omega
      · exact (hrest.mp h2) x hx'
    · intro hall
      have hc48 : c = 48 := hall c (by simp)
      have : natOfDigits rest = 0 := hrest.mpr (fun x hx => hall x (by simp [hx]))
      subst hc48
      simp [this]
      decide

/-! ### Computing rheQ from floor and half comparisons -/

theorem rheQ_of_lt_half {q : ℚ} {n : Nat} (h1 : (n : ℚ) ≤ q) (h2 : q < n + 1 / 2) :
    rheQ q = n := by
  have hfl : Nat.floor q = n := by
    rw [Nat.floor_eq_iff (le_trans (by positivity) h1)]
    constructor
    · exact h1
    · linarith
  simp only [rheQ, hfl]
  have hlt : q - n < 1 / 2 := by linarith
  have hnot : ¬ (1 / 2 < q - (n : ℚ)) := by linarith
  rw [if_neg hnot, if_pos hlt]

theorem rheQ_of_gt_half {q : ℚ} {n : Nat} (h1 : (n : ℚ) + 1 / 2 < q) (h2 : q < n + 1) :
    rheQ q = n + 1 := by
  have h0 : (n : ℚ) ≤ q := by linarith
  have hfl : Nat.floor q = n := by
    rw [Nat.floor_eq_iff (le_trans (by positivity) h0)]
    exact ⟨h0, h2⟩
  simp only [rheQ, hfl]
  rw [if_pos (by linarith : 1 / 2 < q - (n : ℚ))]

theorem rheQ_of_half {q : ℚ} {n : Nat} (h : q = n + 1 / 2) :
    rheQ q = (if n % 2 = 1 then n + 1 else n) := by
  have h0 : (n : ℚ) ≤ q := by rw [h]; linarith
  have hfl : Nat.floor q = n := by
    rw [Nat.floor_eq_iff (le_trans (by positivity) h0)]
    constructor
    · exact h0
    · rw [h]; norm_num
  simp only [rheQ, hfl]
  have hh : q - (n : ℚ) = 1 / 2 := by rw [h]; ring
  rw [hh]
  norm_num

theorem rheQ_natCast (n : Nat) : rheQ (n : ℚ) = n :=
  rheQ_of_lt_half (le_refl _) (by norm_num)

theorem floor_le_rheQ (q : ℚ) : Nat.floor q ≤ rheQ q := by
  simp only [rheQ]
  split <;> try omega
  split <;> try omega
  split <;> omega

theorem rheQ_ge_of_le {q : ℚ} {m : Nat} (h : (m : ℚ) ≤ q) : m ≤ rheQ q :=
  le_trans (Nat.le_floor h) (floor_le_rheQ q)

/-! ### Fraction versus one half, at the level of digit strings -/

theorem half_lt_div_iff (N d : Nat) : ((1 : ℚ) / 2 < (N : ℚ) / 10 ^ d) ↔ 10 ^ d < 2 * N := by
  rw [div_lt_div_iff₀ (by norm_num) (by positivity), one_mul]
  norm_cast
  omega

theorem div_lt_half_iff (N d : Nat) : ((N : ℚ) / 10 ^ d < 1 / 2) ↔ 2 * N < 10 ^ d := by
  rw [div_lt_div_iff₀ (by positivity) (by norm_num), one_mul]
  norm_cast
  omega

theorem div_eq_half_of (N d : Nat) (h : 2 * N = 10 ^ d) : (N : ℚ) / 10 ^ d = 1 / 2 := by
  have hd : ((10 : ℚ) ^ d) ≠ 0 := by positivity
  field_simp
  have h2 : N * 2 = 10 ^ d := by omega
  exact_mod_cast h2

theorem div_lt_one_of (N d : Nat) (h : N < 10 ^ d) : (N : ℚ) / 10 ^ d < 1 := by
  rw [div_lt_one (by positivity)]
  exact_mod_cast h

/-! ### The rounding step -/

theorem roundEven_spec (c : Nat) (rest : List Nat) (v : Nat)
    (hd : allDigits (c :: rest)) (hv : v < U64) :
    roundEven (c :: rest) v =
      mkRes (rheQ ((v : ℚ) + (natOfDigits (c :: rest) : ℚ) / 10 ^ (c :: rest).length)) := by
  have hc : isDigitB c = true := hd c (by simp)
  have hcb : 48 ≤ c ∧ c ≤ 57 := isDigitB_iff.mp hc
  have hrest : allDigits rest := fun x hx => hd x (by simp [hx])
  have hN : natOfDigits (c :: rest) < 10 ^ (c :: rest).length := natOfDigits_lt _ hd
  have hN' : natOfDigits rest < 10 ^ rest.length := natOfDigits_lt _ hrest
  have hNc : natOfDigits (c :: rest) = (c - 48) * 10 ^ rest.length + natOfDigits rest := by
    rw [natOfDigits_cons, digit_and15 hc]
  have hq1 : ((v : ℚ)) ≤ (v : ℚ) + (natOfDigits (c :: rest) : ℚ) / 10 ^ (c :: rest).length := by
    have : (0 : ℚ) ≤ (natOfDigits (c :: rest) : ℚ) / 10 ^ (c :: rest).length := by positivity
    linarith
  have hq2 : (v : ℚ) + (natOfDigits (c :: rest) : ℚ) / 10 ^ (c :: rest).length < v + 1 := by
    have := div_lt_one_of _ _ hN
    linarith
  have hp : 0 < 10 ^ rest.length := Nat.pos_pow_of_pos _ (by norm_num)
  rcases lt_trichotomy c 53 with hlt | heq | hgt
  · -- first fractional digit below 5: never round up
    have h2N : 2 * natOfDigits (c :: rest) < 10 ^ (c :: rest).length := by
      have h4 : c - 48 ≤ 4 := by omega
      have h1 : (c - 48) * 10 ^ rest.length ≤ 4 * 10 ^ rest.length :=
        Nat.mul_le_mul_right _ h4
      simp only [List.length_cons, pow_succ]
      omega
    have hrh : rheQ ((v : ℚ) + (natOfDigits (c :: rest) : ℚ) / 10 ^ (c :: rest).length) = v := by
      apply rheQ_of_lt_half hq1
      have := (div_lt_half_iff (natOfDigits (c :: rest)) ((c :: rest).length)).mpr h2N
      linarith
    rw [hrh]
    have hn53 : ¬ 53 < c := by omega
    simp [roundEven, mkRes, hn53, hlt, hv]
  · -- first fractional digit exactly 5
    subst heq
    have h2N : 2 * natOfDigits (53 :: rest) = 10 ^ (53 :: rest).length + 2 * natOfDigits rest := by
      simp only [List.length_cons, pow_succ]
      omega
    by_cases hz : natOfDigits rest = 0
    · -- an exact tie: round to even
      have hhalf : (v : ℚ) + (natOfDigits (53 :: rest) : ℚ) / 10 ^ (53 :: rest).length
          = (v : ℚ) + 1 / 2 := by
        have : (natOfDigits (53 :: rest) : ℚ) / 10 ^ (53 :: rest).length = 1 / 2 :=
          div_eq_half_of _ _ (by omega)
        rw [this]
      rw [hhalf, rheQ_of_half rfl]
      have hall : ∀ x ∈ rest, x = 48 := (natOfDigits_eq_zero_iff rest hrest).mp hz
      have hany : rest.any (fun d => !(d == 48)) = false := by
        rw [List.any_eq_false]
        intro x hx
        simp [hall x hx]
      by_cases hpar : v % 2 = 1
      · simp [roundEven, mkRes, hpar]
      · simp [roundEven, mkRes, hpar, hany, hv]
    · -- digits after the 5 are not all zero: strictly above one half
      have h2N' : 10 ^ (53 :: rest).length < 2 * natOfDigits (53 :: rest) := by omega
      have hrh : rheQ ((v : ℚ) + (natOfDigits (53 :: rest) : ℚ) / 10 ^ (53 :: rest).length)
          = v + 1 := by
        apply rheQ_of_gt_half _ hq2
        have := (half_lt_div_iff (natOfDigits (53 :: rest)) ((53 :: rest).length)).mpr h2N'
        linarith
      rw [hrh]
      have hany : rest.any (fun d => !(d == 48)) = true := by
        rw [List.any_eq_true]
        by_contra hcon
        push_neg at hcon
        apply hz
        rw [natOfDigits_eq_zero_iff rest hrest]
        intro x hx
        have := hcon x hx
        simpa using this
      by_cases hpar : v % 2 = 1
      · simp [roundEven, mkRes, hpar]
      · simp [roundEven, mkRes, hpar, hany]
  · -- first fractional digit above 5: always round up
    have h2N : 10 ^ (c :: rest).length < 2 * natOfDigits (c :: rest) := by
      have h6 : 6 ≤ c - 48 := by omega
      have h1 : 6 * 10 ^ rest.length ≤ (c - 48) * 10 ^ rest.length :=
        Nat.mul_le_mul_right _ h6
      simp only [List.length_cons, pow_succ]
      omega
    have hrh : rheQ ((v : ℚ) + (natOfDigits (c :: rest) : ℚ) / 10 ^ (c :: rest).length)
        = v + 1 := by
      apply rheQ_of_gt_half _ hq2
      have := (half_lt_div_iff (natOfDigits (c :: rest)) ((c :: rest).length)).mpr h2N
      linarith
    rw [hrh]
    simp [roundEven, mkRes, hgt]

/-! ### The padding loop -/

theorem padZ_spec (k : Nat) : ∀ v, v < U64 → padZ k v = mkRes (v * 10 ^ k) := by
  induction k with
  | zero => intro v hv; simp [padZ, mkRes, hv]
  | succ k ih =>
    intro v hv
    rw [padZ]
    by_cases h10 : v * 10 < U64
    · rw [if_pos h10, ih _ h10]
      have : v * 10 * 10 ^ k = v * 10 ^ (k + 1) := by ring
      rw [this]
    · rw [if_neg h10]
      have hge : U64 ≤ v * 10 ^ (k + 1) := by
        have h1 : v * 10 ≤ v * 10 ^ (k + 1) := by
          have : (10 : Nat) ≤ 10 ^ (k + 1) :=
            Nat.le_self_pow (by omega) 10
          exact Nat.mul_le_mul_left _ this
        omega
      rw [mkRes, if_neg (show ¬ v * 10 ^ (k + 1) < U64 by omega)]

/-! ### The residual rational value -/

theorem digitsOf_nil : digitsOf [] = [] := rfl

theorem digitsOf_cons_digit {c : Nat} (hc : isDigitB c = true) (rest : List Nat) :
    digitsOf (c :: rest) = c :: digitsOf rest := by
  simp [digitsOf, List.filter_cons, hc]

theorem digitsOf_cons_point (rest : List Nat) : digitsOf (46 :: rest) = digitsOf rest := by
  simp [digitsOf, List.filter_cons]
  decide

theorem digitsOf_all (num : List Nat) (h : allDigits num) : digitsOf num = num := by
  induction num with
  | nil => rfl
  | cons c rest ih =>
    rw [digitsOf_cons_digit (h c (by simp)), ih (fun x hx => h x (by simp [hx]))]

theorem qval_nil (idig v : Nat) : qval [] idig v = ((v * 10 ^ idig : Nat) : ℚ) := by
  have h0 : digitsOf [] = [] := rfl
  simp only [qval, h0, natOfDigits_nil, List.length_nil, pow_zero, mul_one, add_zero, div_one]
  push_cast
  ring

theorem qval_point (rest : List Nat) (idig v : Nat) :
    qval (46 :: rest) idig v = qval rest idig v := by
  simp [qval, digitsOf_cons_point]

theorem qval_digit {c : Nat} (hc : isDigitB c = true) (rest : List Nat) (k v : Nat) :
    qval (c :: rest) (k + 1) v = qval rest k (v * 10 + (c &&& 15)) := by
  rw [qval, qval, digitsOf_cons_digit hc]
  have hn : natOfDigits (c :: digitsOf rest)
      = (c &&& 15) * 10 ^ (digitsOf rest).length + natOfDigits (digitsOf rest) :=
    natOfDigits_cons _ _
  rw [hn]
  have hpow : ((10 : ℚ) ^ (digitsOf rest).length) ≠ 0 := by positivity
  simp only [List.length_cons]
  push_cast
  field_simp
  ring

theorem qval_frac (nm : List Nat) (v : Nat) (h : allDigits nm) :
    qval nm 0 v = (v : ℚ) + (natOfDigits nm : ℚ) / 10 ^ nm.length := by
  rw [qval, digitsOf_all nm h]
  have hpow : ((10 : ℚ) ^ nm.length) ≠ 0 := by positivity
  push_cast
  field_simp

theorem qval_ge (nm : List Nat) (idig v : Nat) : (v : ℚ) ≤ qval nm idig v := by
  rw [qval, le_div_iff₀ (by positivity)]
  have hpow2 : (1 : ℚ) ≤ 10 ^ idig := one_le_pow₀ (by norm_num)
  have h1 : (v : ℚ) * 10 ^ (digitsOf nm).length
      ≤ ((v * 10 ^ (digitsOf nm).length + natOfDigits (digitsOf nm) : ℕ) : ℚ) := by
    push_cast
    have : (0 : ℚ) ≤ (natOfDigits (digitsOf nm) : ℚ) := Nat.cast_nonneg _
    linarith
  have h2 : ((v * 10 ^ (digitsOf nm).length + natOfDigits (digitsOf nm) : ℕ) : ℚ)
      ≤ ((v * 10 ^ (digitsOf nm).length + natOfDigits (digitsOf nm) : ℕ) : ℚ) * 10 ^ idig :=
    le_mul_of_one_le_right (by positivity) hpow2
  linarith

/-! ### Unfolding decTail -/

theorem decTail_nil (idig v : Nat) : decTail [] idig v = padZ idig v := by
  cases h : padZ idig v <;> simp [decTail, accumInt, roundEven, h]

theorem decTail_point (rest : List Nat) (idig v : Nat) :
    decTail (46 :: rest) idig v = decTail rest idig v := by
  simp [decTail, accumInt]

theorem decTail_frac (c : Nat) (rest : List Nat) (v : Nat) (hc : c ≠ 46) :
    decTail (c :: rest) 0 v = roundEven (c :: rest) v := by
  simp [decTail, accumInt, hc, padZ]

theorem decTail_digit (c : Nat) (rest : List Nat) (k v : Nat) (hc : c ≠ 46)
    (h : v * 10 + (c &&& 15) < U64) :
    decTail (c :: rest) (k + 1) v = decTail rest k (v * 10 + (c &&& 15)) := by
  have h10 : v * 10 < U64 := by omega
  simp [decTail, accumInt, hc, h, h10]

theorem decTail_digit_overflow (c : Nat) (rest : List Nat) (k v : Nat) (hc : c ≠ 46)
    (h : ¬ v * 10 + (c &&& 15) < U64) :
    decTail (c :: rest) (k + 1) v = .error .Overflow := by
  by_cases h10 : v * 10 < U64 <;> simp [decTail, accumInt, hc, h, h10]

/-! ### The decimal computation computes round-half-to-even exactly -/

theorem decTail_spec (nm : List Nat) : ∀ idig v, NumTail nm idig → v < U64 →
    decTail nm idig v = mkRes (rheQ (qval nm idig v)) := by
  induction nm with
  | nil =>
    intro idig v _ hv
    rw [decTail_nil, padZ_spec _ _ hv, qval_nil, rheQ_natCast]
  | cons c rest ih =>
    intro idig v hwf hv
    by_cases hc : c = 46
    · subst hc
      have hwf' : NumTail rest idig := by
        rcases hwf with ⟨A, B, hAB, hA, hB, hlen⟩ | hall
        · cases A with
          | nil =>
            simp at hAB
            right
            rw [hAB]
            exact hB
          | cons a A' =>
            have ha : isDigitB a = true := hA a (by simp)
            simp at hAB
            obtain ⟨h1, h2⟩ := hAB
            subst h1
            simp [isDigitB] at ha
        · have : isDigitB 46 = true := hall 46 (by simp)
          simp [isDigitB] at this
      rw [decTail_point, qval_point]
      exact ih idig v hwf' hv
    · have hcd : isDigitB c = true := by
        rcases hwf with ⟨A, B, hAB, hA, hB, hlen⟩ | hall
        · cases A with
          | nil => simp at hAB; exact absurd hAB.1 hc
          | cons a A' =>
            simp at hAB
            rw [hAB.1]
            exact hA a (by simp)
        · exact hall c (by simp)
      cases idig with
      | zero =>
        have hall : allDigits (c :: rest) := by
          rcases hwf with ⟨A, B, hAB, hA, hB, hlen⟩ | hall
          · cases A with
            | nil => simp at hAB; exact absurd hAB.1 hc
            | cons a A' => simp at hlen
          · exact hall
        rw [decTail_frac c rest v hc, roundEven_spec c rest v hall hv,
          qval_frac _ _ hall]
      | succ k =>
        by_cases hov : v * 10 + (c &&& 15) < U64
        · rw [decTail_digit c rest k v hc hov, qval_digit hcd]
          apply ih
          · rcases hwf with ⟨A, B, hAB, hA, hB, hlen⟩ | hall
            · cases A with
              | nil => simp at hAB; exact absurd hAB.1 hc
              | cons a A' =>
                left
                refine ⟨A', B, ?_, fun x hx => hA x (by simp [hx]), hB, ?_⟩
                · simp at hAB
                  exact hAB.2
                · simp at hlen
                  omega
            · right
              exact fun x hx => hall x (by simp [hx])
          · exact hov
        · rw [decTail_digit_overflow c rest k v hc hov]
          have hge : (U64 : ℚ) ≤ qval (c :: rest) (k + 1) v := by
            rw [qval_digit hcd]
            refine le_trans ?_ (qval_ge rest k (v * 10 + (c &&& 15)))
            exact_mod_cast (show U64 ≤ v * 10 + (c &&& 15) by omega)
          have hU : U64 ≤ rheQ (qval (c :: rest) (k + 1) v) := rheQ_ge_of_le hge
          rw [mkRes, if_neg (show ¬ rheQ (qval (c :: rest) (k + 1) v) < U64 by omega)]

/-! ### The numeric scan -/

theorem findNum_nil (n : Nat) (pt : Option Nat) : findNum [] n pt = .ok (pt, n) := rfl

theorem findNum_stop (c : Nat) (rest : List Nat) (n : Nat) (pt : Option Nat)
    (h1 : isDigitB c = false) (h2 : c ≠ 46) : findNum (c :: rest) n pt = .ok (pt, n) := by
  simp [findNum, h1, h2]

theorem findNum_digits (A : List Nat) (hA : allDigits A) :
    ∀ (l : List Nat) (n : Nat) (pt : Option Nat),
      findNum (A ++ l) n pt = findNum l (n + A.length) pt := by
  induction A with
  | nil => intro l n pt; simp
  | cons a A' ih =>
    intro l n pt
    have ha : isDigitB a = true := hA a (by simp)
    have hA' : allDigits A' := fun x hx => hA x (by simp [hx])
    simp only [List.cons_append, findNum, ha, if_pos]
    rw [show A'.append l = A' ++ l from rfl, ih hA' l (n + 1) pt]
    have : n + 1 + A'.length = n + (a :: A').length := by simp; omega
    rw [this]

theorem findNum_point (l : List Nat) (n : Nat) :
    findNum (46 :: l) n none = findNum l (n + 1) (some n) := by
  have : isDigitB 46 = false := by decide
  simp [findNum, this]

/-- A byte list that ends the numeric scan at its head (or is empty). -/
theorem findNum_suffix (suffix : List Nat) (n : Nat) (pt : Option Nat)
    (hs : ∀ c ∈ suffix.take 1, isDigitB c = false ∧ c ≠ 46) :
    findNum suffix n pt = .ok (pt, n) := by
  cases suffix with
  | nil => rfl
  | cons c rest =>
    have := hs c (by simp)
    exact findNum_stop c rest n pt this.1 this.2

/-! ### The whitespace skip -/

theorem posNonSpace_all (sp : List Nat) (h : allSpace sp) : posNonSpace sp = none := by
  induction sp with
  | nil => rfl
  | cons c rest ih =>
    have hc := h c (by simp)
    have := ih (fun x hx => h x (by simp [hx]))
    simp [posNonSpace, hc, this]

theorem posNonSpace_append (sp : List Nat) (h : allSpace sp) (c : Nat) (l : List Nat)
    (hc : ¬ (c = 32 ∨ c = 9)) : posNonSpace (sp ++ c :: l) = some sp.length := by
  induction sp with
  | nil => simp [posNonSpace, hc]
  | cons a rest ih =>
    have ha := h a (by simp)
    have := ih (fun x hx => h x (by simp [hx]))
    simp [posNonSpace, ha, this]

theorem skipSpaces_all (sp : List Nat) (h : allSpace sp) : skipSpaces sp = sp := by
  simp [skipSpaces, posNonSpace_all sp h]

theorem skipSpaces_append (sp : List Nat) (h : allSpace sp) (c : Nat) (l : List Nat)
    (hc : ¬ (c = 32 ∨ c = 9)) : skipSpaces (sp ++ c :: l) = c :: l := by
  rw [skipSpaces, posNonSpace_append sp h c l hc]
  exact List.drop_left sp (c :: l)

/-! ### Stripping the trailing b or B -/

theorem stripB_nil : stripB [] = [] := rfl

theorem stripB_concat_b (P : List Nat) : stripB (P ++ [98]) = P := by
  simp [stripB]

theorem stripB_concat_B (P : List Nat) : stripB (P ++ [66]) = P := by
  simp [stripB]

theorem stripB_no_b (l : List Nat) (h : ∀ c ∈ l, c ≠ 98 ∧ c ≠ 66) : stripB l = l := by
  rw [stripB]
  cases hl : l.getLast? with
  | none => rfl
  | some c =>
    have hmem : c ∈ l := by
      obtain ⟨hne, hc⟩ :=
        List.mem_getLast?_eq_getLast (l := l) (x := c) (by rw [hl]; rfl)
      rw [hc]
      exact List.getLast_mem hne
    obtain ⟨hb1, hb2⟩ := h c hmem
    show (if c = 98 ∨ c = 66 then l.dropLast else l) = l
    rw [if_neg (by tauto)]

/-! ### Facts about the unit letter table -/

theorem ppl_byte_facts : ∀ l : Nat, l < 256 → (parsePrefixLetter l).isSome = true →
    isDigitB l = false ∧ l ≠ 46 ∧ l ≠ 98 ∧ l ≠ 66 ∧ l ≠ 32 ∧ l ≠ 9 ∧ l ≠ 105 ∧ l ≠ 73 := by
  decide

/-! ### Well-formed numeric portions decompose around the point -/

theorem numWF_cases (num : List Nat) (h : numWF num) :
    (∃ A B, num = A ++ 46 :: B ∧ allDigits A ∧ allDigits B) ∨ allDigits num := by
  induction num with
  | nil => right; intro c hc; simp at hc
  | cons c rest ih =>
    obtain ⟨hmem, hcount⟩ := h
    have hcnt : (c :: rest).count 46 = rest.count 46 + (if c == 46 then 1 else 0) := by
      rw [List.count_cons]
    rcases hmem c (by simp) with hdig | h46
    · have hwf' : numWF rest :=
        ⟨fun x hx => hmem x (by simp [hx]), by split at hcnt <;> omega⟩
      have hc46 : c ≠ 46 := by
        have := isDigitB_iff.mp hdig
        omega
      rcases ih hwf' with ⟨A, B, hAB, hA, hB⟩ | hall
      · left
        refine ⟨c :: A, B, by simp [hAB], ?_, hB⟩
        intro x hx
        rcases List.mem_cons.mp hx with rfl | hx'
        · exact hdig
        · exact hA x hx'
      · right
        intro x hx
        rcases List.mem_cons.mp hx with rfl | hx'
        · exact hdig
        · exact hall x hx'
    · subst h46
      have hzero : rest.count 46 = 0 := by
        have hcnt2 : (46 :: rest).count 46 = rest.count 46 + 1 := by
          rw [List.count_cons]
          simp
        omega
      left
      refine ⟨[], rest, rfl, fun c hc => absurd hc (by simp), ?_⟩
      intro x hx
      rcases hmem x (by simp [hx]) with hd | h46'
      · exact hd
      · exfalso
        rw [h46'] at hx
        have : 0 < rest.count 46 := List.count_pos_iff.mpr hx
        omega

/-! ### Shape of intLen, digitsOf, fracLen on well-formed numbers -/

theorem intLen_point (A B : List Nat) (hA : allDigits A) :
    intLen (A ++ 46 :: B) = A.length := by
  induction A with
  | nil => simp [intLen, List.takeWhile_cons]
  | cons a A' ih =>
    have ha := isDigitB_iff.mp (hA a (by simp))
    have hA' : allDigits A' := fun x hx => hA x (by simp [hx])
    have hane : (a == 46) = false := by
      simp
      omega
    simp only [intLen, List.cons_append, List.takeWhile_cons, hane, Bool.not_false, if_pos,
      List.length_cons]
    have := ih hA'
    rw [intLen] at this
    omega

theorem intLen_all (num : List Nat) (h : allDigits num) : intLen num = num.length := by
  induction num with
  | nil => rfl
  | cons a rest ih =>
    have ha := isDigitB_iff.mp (h a (by simp))
    have hrest : allDigits rest := fun x hx => h x (by simp [hx])
    have hane : (a == 46) = false := by
      simp
      omega
    simp only [intLen, List.takeWhile_cons, hane, Bool.not_false, if_pos, List.length_cons]
    have := ih hrest
    rw [intLen] at this
    omega

theorem digitsOf_point (A B : List Nat) (hA : allDigits A) :
    digitsOf (A ++ 46 :: B) = A ++ digitsOf B := by
  have h46 : isDigitB 46 = false := by decide
  rw [digitsOf, List.filter_append]
  rw [show List.filter isDigitB A = digitsOf A from rfl, digitsOf_all A hA]
  rw [List.filter_cons, h46]
  rfl

theorem fracLen_point (A B : List Nat) (hA : allDigits A) (hB : allDigits B) :
    fracLen (A ++ 46 :: B) = B.length := by
  rw [fracLen, intLen_point A B hA, digitsOf_point A B hA, digitsOf_all B hB]
  simp

theorem fracLen_all (num : List Nat) (h : allDigits num) : fracLen num = 0 := by
  rw [fracLen, intLen_all num h, digitsOf_all num h]
  omega

/-! ### The rational value at the start of the decimal computation -/

theorem pow1000 (s : Nat) : ((1000 : ℚ) ^ s) = 10 ^ (3 * s) := by
  rw [show (1000 : ℚ) = 10 ^ 3 by norm_num, ← pow_mul]

theorem qval_entry_point (A B : List Nat) (hA : allDigits A) (hB : allDigits B) (s : Nat) :
    qval (A ++ 46 :: B) (A.length + 3 * s) 0 = numValQ (A ++ 46 :: B) * 1000 ^ s := by
  rw [qval, numValQ, digitsOf_point A B hA, digitsOf_all B hB,
    fracLen_point A B hA hB, pow1000]
  have hpA : ((10 : ℚ) ^ A.length) ≠ 0 := by positivity
  have hpB : ((10 : ℚ) ^ B.length) ≠ 0 := by positivity
  have hp3 : ((10 : ℚ) ^ (3 * s)) ≠ 0 := by positivity
  simp only [Nat.zero_mul, zero_mul, zero_add, List.length_append, pow_add]
  field_simp
  ring

theorem qval_entry_all (num : List Nat) (h : allDigits num) (s : Nat) :
    qval num (num.length + 3 * s) 0 = numValQ num * 1000 ^ s := by
  rw [qval, numValQ, digitsOf_all num h, fracLen_all num h, pow1000]
  have hp : ((10 : ℚ) ^ num.length) ≠ 0 := by positivity
  simp only [zero_mul, zero_add, pow_add, pow_zero]
  field_simp
  ring

/-! ### The decimal computation from the parsed inputs -/

theorem decimalCompute_point (A B : List Nat) (hA : allDigits A) (hB : allDigits B)
    (s : Nat) :
    decimalCompute (A ++ 46 :: B) (some A.length) s
      = mkRes (rheQ (numValQ (A ++ 46 :: B) * 1000 ^ s)) := by
  rw [decimalCompute]
  have hnt : NumTail (A ++ 46 :: B) (A.length + 3 * s) :=
    Or.inl ⟨A, B, rfl, hA, hB, by omega⟩
  rw [decTail_spec _ _ _ hnt (by rw [U64]; positivity), qval_entry_point A B hA hB s]

theorem decimalCompute_all (num : List Nat) (h : allDigits num) (s : Nat) :
    decimalCompute num none s = mkRes (rheQ (numValQ num * 1000 ^ s)) := by
  rw [decimalCompute]
  have hnt : NumTail num (num.length + 3 * s) := Or.inr h
  rw [decTail_spec _ _ _ hnt (by rw [U64]; positivity), qval_entry_all num h s]

/-! ### The unit suffix of a well-formed decimal input -/

theorem suffix_head_stops (sp P B : List Nat) (scale : Nat)
    (hsp : allSpace sp) (hP : PfxOk P scale) (hB : BOk B) :
    ∀ c ∈ (sp ++ (P ++ B)).take 1, isDigitB c = false ∧ c ≠ 46 := by
  intro c hc
  cases sp with
  | cons a t =>
    simp at hc
    rcases hsp a (by simp) with rfl | rfl
    · rw [hc]
      decide
    · rw [hc]
      decide
  | nil =>
    rcases hP with ⟨hPnil, _⟩ | ⟨l, hl256, hscale, hPl⟩
    · subst hPnil
      rcases hB with rfl | rfl | rfl
      · simp at hc
      · simp at hc
        rw [hc]
        decide
      · simp at hc
        rw [hc]
        decide
    · subst hPl
      simp at hc
      subst hc
      have := ppl_byte_facts c hl256 (by rw [hscale]; rfl)
      exact ⟨this.1, this.2.1⟩

theorem units_shape (sp P B : List Nat) (scale : Nat)
    (hsp : allSpace sp) (hP : PfxOk P scale) (hB : BOk B)
    (hne : sp ≠ [] → P ++ B ≠ []) :
    stripB (skipSpaces (sp ++ (P ++ B))) = P := by
  by_cases hPB : P ++ B = []
  · have hsp0 : sp = [] := by
      by_contra hs
      exact hne hs hPB
    have hP0 : P = [] := by
      cases P with
      | nil => rfl
      | cons x xs => simp at hPB
    subst hsp0
    subst hP0
    simp only [List.nil_append] at hPB ⊢
    rw [hPB]
    rfl
  · -- the suffix after the spaces is nonempty and starts with a non-space
    obtain ⟨c, t, hct⟩ : ∃ c t, P ++ B = c :: t := by
      cases hcc : P ++ B with
      | nil => exact absurd hcc hPB
      | cons c t => exact ⟨c, t, rfl⟩
    have hcns : ¬ (c = 32 ∨ c = 9) := by
      rcases hP with ⟨hPnil, _⟩ | ⟨l, hl256, hscale, hPl⟩
      · subst hPnil
        rcases hB with rfl | rfl | rfl
        · simp at hct
        · simp at hct
          omega
        · simp at hct
          omega
      · subst hPl
        simp at hct
        have := ppl_byte_facts l hl256 (by rw [hscale]; rfl)
        omega
    rw [hct, skipSpaces_append sp hsp c t hcns, ← hct]
    rcases hB with rfl | rfl | rfl
    · rw [List.append_nil]
      rcases hP with ⟨hPnil, _⟩ | ⟨l, hl256, hscale, hPl⟩
      · subst hPnil
        rfl
      · subst hPl
        have := ppl_byte_facts l hl256 (by rw [hscale]; rfl)
        apply stripB_no_b
        intro x hx
        simp at hx
        omega
    · exact stripB_concat_b P
    · exact stripB_concat_B P

/-! ### from_str on a well-formed decimal input -/

theorem from_str_decimal_general (num sp P B : List Nat) (scale : Nat)
    (hwf : numWF num) (hsp : allSpace sp) (hP : PfxOk P scale) (hB : BOk B)
    (hne : sp ≠ [] → P ++ B ≠ []) :
    from_str (num ++ (sp ++ (P ++ B))) =
      if rheQ (numValQ num * 1000 ^ scale) < U64
      then .ok (.val (rheQ (numValQ num * 1000 ^ scale)))
      else .error .Overflow := by
  have hstop := suffix_head_stops sp P B scale hsp hP hB
  have hunits := units_shape sp P B scale hsp hP hB hne
  -- the numeric scan consumes exactly num and finds the point when present
  have hsplit : ∃ pt0, findNum (num ++ (sp ++ (P ++ B))) 0 none = .ok (pt0, num.length) ∧
      decimalCompute num pt0 scale = mkRes (rheQ (numValQ num * 1000 ^ scale)) := by
    rcases numWF_cases num hwf with ⟨A, Bd, hAB, hA, hBd⟩ | hall
    · refine ⟨some A.length, ?_, ?_⟩
      · subst hAB
        rw [show (A ++ 46 :: Bd) ++ (sp ++ (P ++ B))
            = A ++ (46 :: (Bd ++ (sp ++ (P ++ B)))) by simp]
        rw [findNum_digits A hA, findNum_point, findNum_digits Bd hBd,
          findNum_suffix _ _ _ hstop]
        simp
        omega
      · subst hAB
        exact decimalCompute_point A Bd hA hBd scale
    · refine ⟨none, ?_, ?_⟩
      · rw [findNum_digits num hall, findNum_suffix _ _ _ hstop]
        simp
      · exact decimalCompute_all num hall scale
  obtain ⟨pt0, hfind, hdec⟩ := hsplit
  rw [from_str, hfind]
  simp only [List.take_left, List.drop_left, hunits]
  rcases hP with ⟨hPnil, hs0⟩ | ⟨l, hl256, hscale, hPl⟩
  · subst hPnil
    subst hs0
    by_cases hx : rheQ (numValQ num * 1000 ^ 0) < U64
    · simp only [hdec, mkRes, if_pos hx]
    · simp only [hdec, mkRes, if_neg hx]
  · subst hPl
    have hcond : ¬ (([] : List Nat) = [105] ∨ ([] : List Nat) = [73]) := by simp
    by_cases hx : rheQ (numValQ num * 1000 ^ scale) < U64
    · simp only [if_neg hcond, hscale, hdec, mkRes, if_pos hx]
      simp
    · simp only [if_neg hcond, hscale, hdec, mkRes, if_neg hx]
      simp

/-! ### Concrete evaluations of the exact rounded value -/

theorem rheQ_eval_15 : rheQ (numValQ (strBytes "1.5")) = 2 := by
  have h1 : numValQ (strBytes "1.5") = 3 / 2 := by
    rw [numValQ, show digitsOf (strBytes "1.5") = [49, 53] from by decide,
      show fracLen (strBytes "1.5") = 1 from by decide,
      show natOfDigits [49, 53] = 15 from by decide]
    norm_num
  rw [h1, rheQ_of_half (show (3 / 2 : ℚ) = ((1 : Nat) : ℚ) + 1 / 2 by norm_num)]
  norm_num

theorem rheQ_eval_25000 : rheQ (numValQ (strBytes "2.5000")) = 2 := by
  have h1 : numValQ (strBytes "2.5000") = 5 / 2 := by
    rw [numValQ, show digitsOf (strBytes "2.5000") = [50, 53, 48, 48, 48] from by decide,
      show fracLen (strBytes "2.5000") = 4 from by decide,
      show natOfDigits [50, 53, 48, 48, 48] = 25000 from by decide]
    norm_num
  rw [h1, rheQ_of_half (show (5 / 2 : ℚ) = ((2 : Nat) : ℚ) + 1 / 2 by norm_num)]
  norm_num

theorem rheQ_eval_250001 : rheQ (numValQ (strBytes "2.50001")) = 3 := by
  have h1 : numValQ (strBytes "2.50001") = 250001 / 100000 := by
    rw [numValQ, show digitsOf (strBytes "2.50001") = [50, 53, 48, 48, 48, 49] from by decide,
      show fracLen (strBytes "2.50001") = 5 from by decide,
      show natOfDigits [50, 53, 48, 48, 48, 49] = 250001 from by decide]
    norm_num
  rw [h1]
  have h2 : rheQ (250001 / 100000 : ℚ) = 2 + 1 := by
    apply rheQ_of_gt_half <;> norm_num
  rw [h2]

theorem rheQ_eval_14 : rheQ (numValQ (strBytes "1.4")) = 1 := by
  have h1 : numValQ (strBytes "1.4") = 7 / 5 := by
    rw [numValQ, show digitsOf (strBytes "1.4") = [49, 52] from by decide,
      show fracLen (strBytes "1.4") = 1 from by decide,
      show natOfDigits [49, 52] = 14 from by decide]
    norm_num
  rw [h1]
  apply rheQ_of_lt_half <;> norm_num

/-! ## Claim theorems -/

/-- Claim C1: in decimal (non-binary) mode — a well-formed number (digit
bytes with at most one point and at least one digit), optionally followed
by spaces or tabs, an optional valid SI prefix letter, and an optional
trailing b or B, with no binary marker — parse returns the
round-half-to-even rounding of the exact rational value
(number times 1000 to the scale) whenever that rounding is representable
in u64, and Overflow otherwise. -/
theorem claim1_decimal_round_half_even (num sp P B : List Nat) (scale : Nat)
    (hwf : numWF num) (_hdigit : num.any isDigitB = true)
    (hsp : allSpace sp) (hP : PfxOk P scale) (hB : BOk B)
    (hne : sp ≠ [] → P ++ B ≠ []) :
    from_str (num ++ sp ++ P ++ B) =
      if rheQ (numValQ num * 1000 ^ scale) < U64
      then .ok (.val (rheQ (numValQ num * 1000 ^ scale)))
      else .error .Overflow := by
  have h := from_str_decimal_general num sp P B scale hwf hsp hP hB hne
  rw [← List.append_assoc, ← List.append_assoc] at h
  exact h

/-- Witness for C1: the claim instantiated at the four reference inputs of
the specification. -/
theorem claim1_witness :
    from_str (strBytes "1.5") = .ok (.val 2) ∧
    from_str (strBytes "2.5000") = .ok (.val 2) ∧
    from_str (strBytes "2.50001") = .ok (.val 3) ∧
    from_str (strBytes "1.4") = .ok (.val 1) := by
  refine ⟨?_, ?_, ?_, ?_⟩
  · have h := claim1_decimal_round_half_even (strBytes "1.5") [] [] [] 0
      (by decide) (by decide) (by decide) (Or.inl ⟨rfl, rfl⟩) (Or.inl rfl)
      (fun hs => absurd rfl hs)
    simpa [rheQ_eval_15, U64] using h
  · have h := claim1_decimal_round_half_even (strBytes "2.5000") [] [] [] 0
      (by decide) (by decide) (by decide) (Or.inl ⟨rfl, rfl⟩) (Or.inl rfl)
      (fun hs => absurd rfl hs)
    simpa [rheQ_eval_25000, U64] using h
  · have h := claim1_decimal_round_half_even (strBytes "2.50001") [] [] [] 0
      (by decide) (by decide) (by decide) (Or.inl ⟨rfl, rfl⟩) (Or.inl rfl)
      (fun hs => absurd rfl hs)
    simpa [rheQ_eval_250001, U64] using h
  · have h := claim1_decimal_round_half_even (strBytes "1.4") [] [] [] 0
      (by decide) (by decide) (by decide) (Or.inl ⟨rfl, rfl⟩) (Or.inl rfl)
      (fun hs => absurd rfl hs)
    simpa [rheQ_eval_14, U64] using h

/-- Claim C2 (code bug): for the empty input the parser returns Ok 0 and
never produces the Empty error, although the error type has an Empty
variant with the message for an empty string; the spec requires Empty to
be returned before any other check. -/
theorem claim2_empty_input_returns_zero :
    from_str (strBytes "") = .ok (.val 0) ∧
    from_str (strBytes "") ≠ .error .Empty := by decide

/-- Claim C7, counterexample: a valid number followed only by spaces does
not parse successfully; it fails with InvalidUnits, contradicting the
claim that the spaces are skipped and the value is returned at scale 0. -/
theorem claim7_counterexample :
    from_str (strBytes "5 ") = .error .InvalidUnits ∧
    from_str (strBytes "5 ") ≠ .ok (.val 5) := by decide

/-- Claim C7 as amended: when a well-formed number is followed only by
spaces and tabs (at least one), the whitespace skip keeps the all-space
suffix unchanged, and unit parsing then fails with InvalidUnits. -/
theorem claim7_trailing_spaces_invalid_units (num sp : List Nat)
    (hwf : numWF num) (hsp : allSpace sp) (hne : sp ≠ []) :
    from_str (num ++ sp) = .error .InvalidUnits := by
  obtain ⟨c, t, rfl⟩ : ∃ c t, sp = c :: t := by
    cases sp with
    | nil => exact absurd rfl hne
    | cons a b => exact ⟨a, b, rfl⟩
  have hstop : ∀ x ∈ (c :: t).take 1, isDigitB x = false ∧ x ≠ 46 := by
    intro x hx
    simp at hx
    rw [hx]
    rcases hsp c (by simp) with rfl | rfl <;> exact ⟨by decide, by decide⟩
  have hfind : ∃ pt0, findNum (num ++ (c :: t)) 0 none = .ok (pt0, num.length) := by
    rcases numWF_cases num hwf with ⟨A, Bd, hAB, hA, hBd⟩ | hall
    · subst hAB
      refine ⟨some A.length, ?_⟩
      rw [show (A ++ 46 :: Bd) ++ (c :: t) = A ++ (46 :: (Bd ++ (c :: t))) by simp]
      rw [findNum_digits A hA, findNum_point, findNum_digits Bd hBd,
        findNum_suffix _ _ _ hstop]
      simp
      omega
    · refine ⟨none, ?_⟩
      rw [findNum_digits num hall, findNum_suffix _ _ _ hstop]
      simp
  obtain ⟨pt0, hfind⟩ := hfind
  have hunits : stripB (skipSpaces (c :: t)) = c :: t := by
    rw [skipSpaces_all _ hsp, stripB_no_b]
    intro x hx
    rcases hsp x hx with rfl | rfl <;> exact ⟨by decide, by decide⟩
  rw [from_str, hfind]
  simp only [List.take_left, List.drop_left, hunits]
  by_cases hi : t = [105] ∨ t = [73]
  · exfalso
    rcases hi with rfl | rfl
    · rcases hsp 105 (by simp) with h | h <;> omega
    · rcases hsp 73 (by simp) with h | h <;> omega
  · rw [if_neg hi]
    by_cases ht : t = []
    · subst ht
      rw [if_pos rfl]
      rcases hsp c (by simp) with rfl | rfl <;> rfl
    · rw [if_neg ht]

/-- Witness for the amended C7 at the concrete input of the spec example. -/
theorem claim7_witness : from_str (strBytes "5" ++ [32]) = .error .InvalidUnits :=
  claim7_trailing_spaces_invalid_units (strBytes "5") [32] (by decide) (by decide)
    (by decide)

/-- Claim C8: prefix letters match case-insensitively, an optional B and
optional intervening spaces do not change the value: the four spec inputs
all parse to 5000. -/
theorem claim8_suffix_flexibility :
    from_str (strBytes "5K") = .ok (.val 5000) ∧
    from_str (strBytes "5k") = .ok (.val 5000) ∧
    from_str (strBytes "5KB") = .ok (.val 5000) ∧
    from_str (strBytes "5 K") = .ok (.val 5000) := by decide

/-- Claim C10: an input with no digits but a valid decimal unit suffix
parses to zero (the empty numeric portion is accepted as zero in decimal
mode), while the binary counterpart (unit letter followed by the i or I
marker) fails with InvalidNumber because the empty numeric text fails the
floating-point parse. -/
theorem claim10_digitless_units (l scale : Nat) (B : List Nat)
    (hl : l < 256) (hscale : parsePrefixLetter l = some scale) (hB : BOk B) :
    from_str ([l] ++ B) = .ok (.val 0) ∧
    from_str ([l, 105] ++ B) = .error .InvalidNumber ∧
    from_str ([l, 73] ++ B) = .error .InvalidNumber := by
  have hfacts := ppl_byte_facts l hl (by rw [hscale]; rfl)
  constructor
  · have h := from_str_decimal_general [] [] [l] B scale
      ⟨fun c hc => absurd hc (by simp), by simp⟩
      (fun c hc => absurd hc (by simp))
      (Or.inr ⟨l, hl, hscale, rfl⟩) hB (fun hs => absurd rfl hs)
    have h0 : numValQ [] * 1000 ^ scale = ((0 : ℕ) : ℚ) := by
      rw [numValQ]
      norm_num [digitsOf, natOfDigits]
    rw [h0, rheQ_natCast] at h
    rw [if_pos (by rw [U64]; positivity)] at h
    simpa using h
  · have key : ∀ m : Nat, (m = 105 ∨ m = 73) →
        from_str ([l, m] ++ B) = .error .InvalidNumber := by
      intro m hm
      have hmne : m ≠ 98 ∧ m ≠ 66 := by omega
      have hfind : findNum ([l, m] ++ B) 0 none = .ok (none, 0) := by
        rw [show [l, m] ++ B = l :: (m :: B) from rfl]
        exact findNum_stop l (m :: B) 0 none hfacts.1 hfacts.2.1
      have hskip : skipSpaces ([l, m] ++ B) = [l, m] ++ B := by
        have := skipSpaces_append [] (fun c hc => absurd hc (by simp)) l (m :: B)
          (by omega)
        simpa using this
      have hstrip : stripB ([l, m] ++ B) = [l, m] := by
        rcases hB with rfl | rfl | rfl
        · rw [List.append_nil]
          apply stripB_no_b
          intro x hx
          simp at hx
          rcases hx with rfl | rfl
          · omega
          · omega
        · exact stripB_concat_b [l, m]
        · exact stripB_concat_B [l, m]
      rw [from_str, hfind]
      simp only [List.take_zero, List.drop_zero, hskip, hstrip]
      rw [if_pos (by rcases hm with rfl | rfl; exact Or.inl rfl; exact Or.inr rfl),
        hscale]
      rfl
    exact ⟨key 105 (Or.inl rfl), key 73 (Or.inr rfl)⟩

/-- Witness for C10 at concrete unit suffixes. -/
theorem claim10_witness :
    from_str (strBytes "k") = .ok (.val 0) ∧
    from_str (strBytes "MB") = .ok (.val 0) ∧
    from_str (strBytes "ki") = .error .InvalidNumber := by
  have h1 := claim10_digitless_units 107 1 [] (by decide) (by decide) (Or.inl rfl)
  have h2 := claim10_digitless_units 77 2 [66] (by decide) (by decide)
    (Or.inr (Or.inr rfl))
  exact ⟨h1.1, h2.1, h1.2.1⟩

/-! ### The decimal digit representation -/

theorem natDigitsFuel_spec (fuel : Nat) : ∀ n, n < 10 ^ (fuel + 1) →
    allDigits (natDigitsFuel (fuel + 1) n) ∧
    natOfDigits (natDigitsFuel (fuel + 1) n) = n ∧
    natDigitsFuel (fuel + 1) n ≠ [] := by
  induction fuel with
  | zero =>
    intro n hn
    have h10 : n < 10 := by simpa using hn
    rw [natDigitsFuel, if_pos h10]
    refine ⟨?_, ?_, by simp⟩
    · intro c hc
      simp at hc
      rw [hc]
      exact digit_of_add48 (by omega)
    · rw [natOfDigits_cons, natOfDigits_nil, and15_add48 (by omega)]
      simp
  | succ fuel ih =>
    intro n hn
    by_cases h10 : n < 10
    · rw [natDigitsFuel, if_pos h10]
      refine ⟨?_, ?_, by simp⟩
      · intro c hc
        simp at hc
        rw [hc]
        exact digit_of_add48 (by omega)
      · rw [natOfDigits_cons, natOfDigits_nil, and15_add48 (by omega)]
        simp
    · rw [natDigitsFuel, if_neg h10]
      have hdiv : n / 10 < 10 ^ (fuel + 1) := by
        have hp : (10 : Nat) ^ (fuel + 2) = 10 ^ (fuel + 1) * 10 := by ring
        rw [hp] at hn
        omega
      obtain ⟨ha, hv, hne⟩ := ih (n / 10) hdiv
      refine ⟨?_, ?_, by simp⟩
      · intro c hc
        rcases List.mem_append.mp hc with hc1 | hc2
        · exact ha c hc1
        · simp at hc2
          rw [hc2]
          exact digit_of_add48 (by omega)
      · rw [natOfDigits_append, hv]
        simp only [List.length_cons, List.length_nil, pow_one]
        rw [natOfDigits_cons, natOfDigits_nil, and15_add48 (by omega)]
        simp
        omega

theorem natRepr_spec (n : Nat) :
    allDigits (natRepr n) ∧ natOfDigits (natRepr n) = n ∧ natRepr n ≠ [] := by
  apply natDigitsFuel_spec n n
  calc n < 2 ^ n := Nat.lt_two_pow n
    _ ≤ 10 ^ n := Nat.pow_le_pow_left (by norm_num) n
    _ ≤ 10 ^ (n + 1) := Nat.pow_le_pow_right (by norm_num) (by omega)

theorem natRepr_digits (n : Nat) : allDigits (natRepr n) := (natRepr_spec n).1

theorem natRepr_val (n : Nat) : natOfDigits (natRepr n) = n := (natRepr_spec n).2.1

theorem natRepr_one (n : Nat) (h : n < 10) : natRepr n = [48 + n] := by
  rw [natRepr, natDigitsFuel, if_pos h]

theorem natRepr_two (f : Nat) (h1 : 10 ≤ f) (h2 : f < 100) :
    natRepr f = [48 + f / 10, 48 + f % 10] := by
  obtain ⟨g, rfl⟩ : ∃ g, f = g + 1 := ⟨f - 1, by omega⟩
  rw [natRepr, natDigitsFuel, if_neg (by omega), natDigitsFuel, if_pos (by omega)]
  rfl

theorem pad2_eq (f : Nat) (h : f < 100) : pad2 f = [48 + f / 10, 48 + f % 10] := by
  by_cases h10 : f < 10
  · rw [pad2, if_pos h10, natRepr_one f h10]
    have hd : f / 10 = 0 := by omega
    have hm : f % 10 = f := by omega
    rw [hd, hm]
  · rw [pad2, if_neg h10, natRepr_two f (by omega) h]

theorem pad2_digits (f : Nat) (h : f < 100) : allDigits (pad2 f) := by
  rw [pad2_eq f h]
  intro c hc
  simp at hc
  rcases hc with rfl | rfl
  · exact digit_of_add48 (by omega)
  · exact digit_of_add48 (by omega)

theorem pad2_val (f : Nat) (h : f < 100) : natOfDigits (pad2 f) = f := by
  rw [pad2_eq f h, natOfDigits_cons, natOfDigits_cons, natOfDigits_nil,
    and15_add48 (by omega), and15_add48 (by omega)]
  simp
  omega

theorem pad2_len (f : Nat) (h : f < 100) : (pad2 f).length = 2 := by
  rw [pad2_eq f h]
  rfl

/-- Claim C4: for every value below 1000 the formatter emits exactly the
decimal digits of the value, a space, and the letter B, with no rounding
and no point byte. -/
theorem claim4_small_values_exact (n : Nat) (h : n < 1000) :
    toDisplayBytes n = natRepr n ++ [32, 66] ∧
    natOfDigits (natRepr n) = n ∧ allDigits (natRepr n) :=
  ⟨by rw [toDisplayBytes, if_pos h], natRepr_val n, natRepr_digits n⟩

/-- Witness for C4 at the largest small value. -/
theorem claim4_witness :
    toDisplayBytes 999 = natRepr 999 ++ [32, 66] ∧
    natOfDigits (natRepr 999) = 999 ∧ allDigits (natRepr 999) :=
  claim4_small_values_exact 999 (by decide)

/-- Claim C5: the formatter matches the reference table on round-to-even
ties, boundary promotions, and the maximum u64 value. -/
theorem claim5_reference_table :
    toDisplayBytes 2335 = strBytes "2.34 kB" ∧
    toDisplayBytes 2334 = strBytes "2.33 kB" ∧
    toDisplayBytes 9995 = strBytes "10.0 kB" ∧
    toDisplayBytes 99950 = strBytes "100 kB" ∧
    toDisplayBytes 999500 = strBytes "1.00 MB" ∧
    toDisplayBytes (2 ^ 64 - 1) = strBytes "18.4 EB" := by
  refine ⟨?_, ?_, ?_, ?_, ?_, ?_⟩
  · rw [toDisplayBytes, show divLoop 0 2335 true = (0, 2, 335, true) from by simp [divLoop]]
    decide
  · rw [toDisplayBytes, show divLoop 0 2334 true = (0, 2, 334, true) from by simp [divLoop]]
    decide
  · rw [toDisplayBytes, show divLoop 0 9995 true = (0, 9, 995, true) from by simp [divLoop]]
    decide
  · rw [toDisplayBytes,
      show divLoop 0 99950 true = (0, 99, 950, true) from by simp [divLoop]]
    decide
  · rw [toDisplayBytes,
      show divLoop 0 999500 true = (0, 999, 500, true) from by simp [divLoop]]
    decide
  · rw [toDisplayBytes,
      show divLoop 0 (2 ^ 64 - 1) true = (5, 18, 446, false) from by simp [divLoop]]
    decide

/-! ### Characterizing the division loop -/

theorem divLoop_base (p u : Nat) (ex : Bool) (h : u / 1000 < 1000) :
    divLoop p u ex = (p, u / 1000, u % 1000, ex) := by
  rw [divLoop]
  simp [h]

theorem divLoop_step (p u : Nat) (ex : Bool) (h : ¬ u / 1000 < 1000) :
    divLoop p u ex = divLoop (p + 1) (u / 1000) (ex && (u % 1000 == 0)) := by
  rw [divLoop]
  simp [h]

theorem mod_mul_eq_zero_iff (a k : Nat) :
    a % (1000 * 1000 ^ k) = 0 ↔ a % 1000 = 0 ∧ (a / 1000) % 1000 ^ k = 0 := by
  constructor
  · intro h
    obtain ⟨t, rfl⟩ := Nat.dvd_of_mod_eq_zero h
    rw [mul_assoc]
    constructor
    · exact Nat.mul_mod_right 1000 _
    · rw [Nat.mul_div_cancel_left _ (by norm_num : 0 < 1000)]
      exact Nat.mul_mod_right _ _
  · rintro ⟨h1, h2⟩
    obtain ⟨s, hs⟩ := Nat.dvd_of_mod_eq_zero h1
    obtain ⟨t, ht⟩ := Nat.dvd_of_mod_eq_zero (by
      rw [hs, Nat.mul_div_cancel_left _ (by norm_num : 0 < 1000)] at h2
      exact h2)
    rw [hs, ht, ← mul_assoc]
    exact Nat.mul_mod_right _ _

theorem divLoop_spec (u : Nat) : 1000 ≤ u → ∀ p0 ex0, ∃ k,
    divLoop p0 u ex0 = (p0 + k, u / 1000 ^ (k + 1), u / 1000 ^ k % 1000,
      ex0 && (u % 1000 ^ k == 0)) ∧
    1000 ^ (k + 1) ≤ u ∧ u / 1000 ^ (k + 1) < 1000 := by
  induction u using Nat.strong_induction_on with
  | _ u IH =>
    intro hu p0 ex0
    by_cases hbase : u / 1000 < 1000
    · refine ⟨0, ?_, by simpa using hu, by simpa using hbase⟩
      rw [divLoop_base p0 u ex0 hbase]
      simp [Nat.mod_one]
    · have hu' : 1000 ≤ u / 1000 := by omega
      have hlt : u / 1000 < u := by omega
      obtain ⟨k', hk1, hk2, hk3⟩ := IH (u / 1000) hlt hu' (p0 + 1) (ex0 && (u % 1000 == 0))
      have hdd : ∀ j : Nat, u / 1000 / 1000 ^ j = u / 1000 ^ (j + 1) := by
        intro j
        rw [Nat.div_div_eq_div_mul]
        congr 1
        ring
      have hiff := mod_mul_eq_zero_iff u k'
      have hpow : (1000 : Nat) ^ (k' + 1) = 1000 * 1000 ^ k' := by ring
      have hcomp : ((u % 1000 == 0) && (u / 1000 % 1000 ^ k' == 0))
          = (u % (1000 * 1000 ^ k') == 0) := by
        by_cases h1 : u % 1000 = 0 <;> by_cases h2 : u / 1000 % 1000 ^ k' = 0
        · simp [h1, h2, hiff.mpr ⟨h1, h2⟩]
        · have hno : ¬ u % (1000 * 1000 ^ k') = 0 := fun hcc => h2 (hiff.mp hcc).2
          simp [h1, h2, hno]
        · have hno : ¬ u % (1000 * 1000 ^ k') = 0 := fun hcc => h1 (hiff.mp hcc).1
          simp [h1, h2, hno]
        · have hb1 : (u % 1000 == 0) = false := by
            rw [beq_eq_false_iff_ne]
            exact h1
          have hno : ¬ u % (1000 * 1000 ^ k') = 0 := fun hcc => h1 (hiff.mp hcc).1
          have hb3 : (u % (1000 * 1000 ^ k') == 0) = false := by
            rw [beq_eq_false_iff_ne]
            exact hno
          rw [hb1, hb3, Bool.false_and]
      have hbool : ((ex0 && (u % 1000 == 0)) && (u / 1000 % 1000 ^ k' == 0))
          = (ex0 && (u % 1000 ^ (k' + 1) == 0)) := by
        rw [Bool.and_assoc, hcomp, hpow]
      refine ⟨k' + 1, ?_, ?_, ?_⟩
      · rw [divLoop_step p0 u ex0 hbase, hk1, hdd k', hdd (k' + 1), hbool]
        have : p0 + 1 + k' = p0 + (k' + 1) := by omega
        rw [this]
      · have h1 : 1000 ^ (k' + 1) * 1000 ≤ u / 1000 * 1000 :=
          Nat.mul_le_mul_right _ hk2
        have h2 : u / 1000 * 1000 ≤ u := Nat.div_mul_le_self u 1000
        calc (1000 : Nat) ^ (k' + 2) = 1000 ^ (k' + 1) * 1000 := by ring
          _ ≤ u / 1000 * 1000 := h1
          _ ≤ u := h2
      · rw [← hdd (k' + 1)]
        exact hk3

/-- Claim C6: for every u64 input the division loop's prefix index stays
within the six-letter table kMGTPE (index at most 5), and whenever the
third digit tier (units at least 100) is reached — the only tier whose
carry consults index plus one — the index is at most 4, so both table
lookups are in bounds of the table of length 6. -/
theorem claim6_prefix_index_bounds (size : Nat) (hsz : size < U64) :
    (divLoop 0 size true).1 ≤ 5 ∧
    (100 ≤ (divLoop 0 size true).2.1 → (divLoop 0 size true).1 + 1 ≤ 5) ∧
    PREFIXES.length = 6 := by
  have main : (divLoop 0 size true).1 ≤ 5 ∧
      (100 ≤ (divLoop 0 size true).2.1 → (divLoop 0 size true).1 + 1 ≤ 5) := by
    by_cases h1000 : 1000 ≤ size
    · obtain ⟨k, hk1, hk2, hk3⟩ := divLoop_spec size h1000 0 true
      rw [hk1]
      have hk5 : k ≤ 5 := by
        by_contra hk
        push_neg at hk
        have h7 : (1000 : Nat) ^ 7 ≤ 1000 ^ (k + 1) :=
          Nat.pow_le_pow_right (by norm_num) (by omega)
        have := le_trans h7 hk2
        rw [U64] at hsz
        norm_num at this
        omega
      refine ⟨by simpa using hk5, ?_⟩
      intro hunits
      simp only [Nat.zero_add] at hunits ⊢
      have h100 : 100 * 1000 ^ (k + 1) ≤ size := by
        have := (Nat.le_div_iff_mul_le (by positivity)).mp hunits
        omega
      by_contra hk
      push_neg at hk
      have h5 : (1000 : Nat) ^ 5 ≤ 1000 ^ k :=
        Nat.pow_le_pow_right (by norm_num) (by omega)
      have : 100 * (1000 ^ 5 * 1000) ≤ 100 * (1000 ^ k * 1000) := by
        have := Nat.mul_le_mul_right 1000 h5
        omega
      rw [U64] at hsz
      have hconv : (1000 : Nat) ^ (k + 1) = 1000 ^ k * 1000 := by ring
      rw [hconv] at h100
      norm_num at this
      omega
    · have hdiv : size / 1000 < 1000 := by omega
      rw [divLoop_base 0 size true hdiv]
      have : size / 1000 = 0 := by omega
      refine ⟨by omega, ?_⟩
      rw [this]
      omega
  exact ⟨main.1, main.2, rfl⟩

/-! ### Parsing the strings produced by the formatter -/

theorem count46_zero (A : List Nat) (hA : allDigits A) : A.count 46 = 0 := by
  rw [List.count_eq_zero]
  intro hmem
  have := isDigitB_iff.mp (hA 46 hmem)
  omega

theorem numWF_point (A B : List Nat) (hA : allDigits A) (hB : allDigits B) :
    numWF (A ++ 46 :: B) := by
  constructor
  · intro c hc
    rcases List.mem_append.mp hc with h1 | h2
    · exact Or.inl (hA c h1)
    · rcases List.mem_cons.mp h2 with rfl | h3
      · exact Or.inr rfl
      · exact Or.inl (hB c h3)
  · rw [List.count_append, count46_zero A hA, List.count_cons, count46_zero B hB]
    simp

theorem numWF_all (A : List Nat) (hA : allDigits A) : numWF A :=
  ⟨fun c hc => Or.inl (hA c hc), by rw [count46_zero A hA]; omega⟩

theorem pfxByte_valid (p : Nat) (hp : p ≤ 5) :
    pfxByte p < 256 ∧ parsePrefixLetter (pfxByte p) = some (p + 1) := by
  interval_cases p <;> exact ⟨by decide, by decide⟩

theorem numValQ_point_val (D1 D2 : List Nat) (h1 : allDigits D1) (h2 : allDigits D2) :
    numValQ (D1 ++ 46 :: D2)
      = ((natOfDigits D1 * 10 ^ D2.length + natOfDigits D2 : ℕ) : ℚ) / 10 ^ D2.length := by
  rw [numValQ, digitsOf_point D1 D2 h1, digitsOf_all D2 h2, fracLen_point D1 D2 h1 h2,
    natOfDigits_append]

theorem numValQ_all_val (D : List Nat) (h : allDigits D) :
    numValQ D = ((natOfDigits D : ℕ) : ℚ) := by
  rw [numValQ, digitsOf_all D h, fracLen_all D h]
  simp

theorem val_tier1 (U F k : Nat) (hF : F < 100) :
    numValQ (natRepr U ++ 46 :: pad2 F) * 1000 ^ (k + 1)
      = (((1000 * U + 10 * F) * 1000 ^ k : ℕ) : ℚ) := by
  rw [numValQ_point_val _ _ (natRepr_digits U) (pad2_digits F hF), natRepr_val,
    pad2_val F hF, pad2_len F hF]
  push_cast
  field_simp
  ring

theorem natRepr_single_val (F : Nat) (hF : F < 10) :
    natOfDigits (natRepr F) = F ∧ (natRepr F).length = 1 := by
  rw [natRepr_one F hF]
  refine ⟨?_, rfl⟩
  rw [natOfDigits_cons, natOfDigits_nil, and15_add48 (by omega)]
  simp

theorem val_tier2 (U F k : Nat) (hF : F < 10) :
    numValQ (natRepr U ++ 46 :: natRepr F) * 1000 ^ (k + 1)
      = (((1000 * U + 100 * F) * 1000 ^ k : ℕ) : ℚ) := by
  obtain ⟨hFv, hFl⟩ := natRepr_single_val F hF
  rw [numValQ_point_val _ _ (natRepr_digits U) (natRepr_digits F), natRepr_val,
    hFv, hFl]
  push_cast
  field_simp
  ring

theorem val_tier3 (U k : Nat) :
    numValQ (natRepr U) * 1000 ^ (k + 1) = ((U * 1000 ^ (k + 1) : ℕ) : ℚ) := by
  rw [numValQ_all_val _ (natRepr_digits U), natRepr_val]
  push_cast
  ring

theorem parse_shape1 (U F k : Nat) (hF : F < 100) (hk : k ≤ 5)
    (hM : (1000 * U + 10 * F) * 1000 ^ k < U64) :
    from_str ((natRepr U ++ 46 :: pad2 F) ++ [32, pfxByte k, 66])
      = .ok (.val ((1000 * U + 10 * F) * 1000 ^ k)) := by
  obtain ⟨hb1, hb2⟩ := pfxByte_valid k hk
  have h := from_str_decimal_general (natRepr U ++ 46 :: pad2 F) [32] [pfxByte k] [66]
    (k + 1) (numWF_point _ _ (natRepr_digits U) (pad2_digits F hF))
    (fun c hc => by simp at hc; omega)
    (Or.inr ⟨pfxByte k, hb1, hb2, rfl⟩) (Or.inr (Or.inr rfl)) (fun _ => by simp)
  rw [val_tier1 U F k hF, rheQ_natCast, if_pos hM] at h
  rw [show [32] ++ ([pfxByte k] ++ [66]) = [32, pfxByte k, 66] from rfl] at h
  exact h

theorem parse_shape2 (U F k : Nat) (hF : F < 10) (hk : k ≤ 5)
    (hM : (1000 * U + 100 * F) * 1000 ^ k < U64) :
    from_str ((natRepr U ++ 46 :: natRepr F) ++ [32, pfxByte k, 66])
      = .ok (.val ((1000 * U + 100 * F) * 1000 ^ k)) := by
  obtain ⟨hb1, hb2⟩ := pfxByte_valid k hk
  have h := from_str_decimal_general (natRepr U ++ 46 :: natRepr F) [32] [pfxByte k] [66]
    (k + 1) (numWF_point _ _ (natRepr_digits U) (natRepr_digits F))
    (fun c hc => by simp at hc; omega)
    (Or.inr ⟨pfxByte k, hb1, hb2, rfl⟩) (Or.inr (Or.inr rfl)) (fun _ => by simp)
  rw [val_tier2 U F k hF, rheQ_natCast, if_pos hM] at h
  rw [show [32] ++ ([pfxByte k] ++ [66]) = [32, pfxByte k, 66] from rfl] at h
  exact h

theorem parse_shape3 (U k : Nat) (hk : k ≤ 5) (hM : U * 1000 ^ (k + 1) < U64) :
    from_str (natRepr U ++ [32, pfxByte k, 66]) = .ok (.val (U * 1000 ^ (k + 1))) := by
  obtain ⟨hb1, hb2⟩ := pfxByte_valid k hk
  have h := from_str_decimal_general (natRepr U) [32] [pfxByte k] [66]
    (k + 1) (numWF_all _ (natRepr_digits U))
    (fun c hc => by simp at hc; omega)
    (Or.inr ⟨pfxByte k, hb1, hb2, rfl⟩) (Or.inr (Or.inr rfl)) (fun _ => by simp)
  rw [val_tier3 U k, rheQ_natCast, if_pos hM] at h
  rw [show [32] ++ ([pfxByte k] ++ [66]) = [32, pfxByte k, 66] from rfl] at h
  exact h

theorem parse_small (n : Nat) (hn : n < U64) :
    from_str (natRepr n ++ [32, 66]) = .ok (.val n) := by
  have h := from_str_decimal_general (natRepr n) [32] [] [66] 0
    (numWF_all _ (natRepr_digits n)) (fun c hc => by simp at hc; omega)
    (Or.inl ⟨rfl, rfl⟩) (Or.inr (Or.inr rfl)) (fun _ => by simp)
  have hval : numValQ (natRepr n) * 1000 ^ 0 = ((n : ℕ) : ℚ) := by
    rw [numValQ_all_val _ (natRepr_digits n), natRepr_val]
    simp
  rw [hval, rheQ_natCast, if_pos hn] at h
  rw [show [32] ++ (([] : List Nat) ++ [66]) = [32, 66] from rfl] at h
  exact h

/-- The formatter on a large value, with the division loop results
substituted: the three digit tiers written out. -/
theorem toDisplayBytes_big (n k u ms : Nat) (exb : Bool)
    (hge : ¬ n < 1000) (hdl : divLoop 0 n true = (k, u, ms, exb)) :
    toDisplayBytes n =
      (if u < 10 then
        if 5 < ms % 10 ∨ (ms % 10 = 5 ∧ (ms / 10 % 2 = 1 ∨ exb = false)) then
          if ms / 10 + 1 = 100 then
            if u + 1 = 10 then [49, 48, 46, 48, 32, pfxByte k, 66]
            else natRepr (u + 1) ++ [46] ++ pad2 0 ++ [32, pfxByte k, 66]
          else natRepr u ++ [46] ++ pad2 (ms / 10 + 1) ++ [32, pfxByte k, 66]
        else natRepr u ++ [46] ++ pad2 (ms / 10) ++ [32, pfxByte k, 66]
      else if u < 100 then
        if 50 < ms % 100 ∨ (ms % 100 = 50 ∧ (ms / 100 % 2 = 1 ∨ exb = false)) then
          if ms / 100 + 1 = 10 then
            if u + 1 = 100 then [49, 48, 48, 32, pfxByte k, 66]
            else natRepr (u + 1) ++ [46, 48, 32, pfxByte k, 66]
          else natRepr u ++ [46] ++ natRepr (ms / 100 + 1) ++ [32, pfxByte k, 66]
        else natRepr u ++ [46] ++ natRepr (ms / 100) ++ [32, pfxByte k, 66]
      else
        if 1000 ≤ (if 500 < ms ∨ (ms = 500 ∧ (u % 2 = 1 ∨ exb = false)) then u + 1 else u)
        then [49, 46, 48, 48, 32, pfxByte (k + 1), 66]
        else natRepr
          (if 500 < ms ∨ (ms = 500 ∧ (u % 2 = 1 ∨ exb = false)) then u + 1 else u)
          ++ [32, pfxByte k, 66]) := by
  rw [toDisplayBytes, if_neg hge, hdl]

/-- Distance bounds for one displayed tier: if the displayed mantissa
differs from the true one by at most bnd in the third base-1000 digit
group, the parsed value is within n / 100 of n. -/
theorem roundtrip_bounds (n u ms k r x bnd : Nat)
    (hn : n = (1000 * u + ms) * 1000 ^ k + r)
    (hr : r < 1000 ^ k)
    (hx1 : ms ≤ x + bnd) (hx2 : x ≤ ms + bnd)
    (hcap : (bnd + 1) * 100 ≤ 1000 * u) :
    (1000 * u + x) * 1000 ^ k ≤ n + n / 100 ∧
    n ≤ (1000 * u + x) * 1000 ^ k + n / 100 := by
  have hPpos : 0 < 1000 ^ k := by positivity
  have hdiv : (bnd + 1) * 1000 ^ k ≤ n / 100 := by
    have h1 : (bnd + 1) * 100 * 1000 ^ k ≤ 1000 * u * 1000 ^ k :=
      Nat.mul_le_mul_right _ hcap
    have h2 : 1000 * u * 1000 ^ k ≤ n := by
      rw [hn]
      have h3 : 1000 * u * 1000 ^ k ≤ (1000 * u + ms) * 1000 ^ k :=
        Nat.mul_le_mul_right _ (by omega)
      omega
    have h3 : (bnd + 1) * 100 * 1000 ^ k ≤ n := le_trans h1 h2
    have h4 : (bnd + 1) * 1000 ^ k = (bnd + 1) * 100 * 1000 ^ k / 100 := by
      rw [show (bnd + 1) * 100 * 1000 ^ k = 100 * ((bnd + 1) * 1000 ^ k) by ring,
        Nat.mul_div_cancel_left _ (by norm_num : 0 < 100)]
    rw [h4]
    exact Nat.div_le_div_right h3
  constructor
  · have hM : (1000 * u + x) * 1000 ^ k ≤ (1000 * u + ms) * 1000 ^ k + bnd * 1000 ^ k := by
      have h5 : (1000 * u + x) * 1000 ^ k ≤ (1000 * u + ms + bnd) * 1000 ^ k :=
        Nat.mul_le_mul_right _ (by omega)
      have h6 : (1000 * u + ms + bnd) * 1000 ^ k
          = (1000 * u + ms) * 1000 ^ k + bnd * 1000 ^ k := by ring
      omega
    have h7 : (1000 * u + ms) * 1000 ^ k ≤ n := by rw [hn]; omega
    have h8 : bnd * 1000 ^ k ≤ (bnd + 1) * 1000 ^ k :=
      Nat.mul_le_mul_right _ (by omega)
    omega
  · have h5 : (1000 * u + ms) * 1000 ^ k ≤ (1000 * u + x) * 1000 ^ k + bnd * 1000 ^ k := by
      have h6 : (1000 * u + ms) * 1000 ^ k ≤ (1000 * u + x + bnd) * 1000 ^ k :=
        Nat.mul_le_mul_right _ (by omega)
      have h7 : (1000 * u + x + bnd) * 1000 ^ k
          = (1000 * u + x) * 1000 ^ k + bnd * 1000 ^ k := by ring
      omega
    have h8 : bnd * 1000 ^ k + 1000 ^ k = (bnd + 1) * 1000 ^ k := by ring
    omega

theorem M_lt_low (u x k : Nat) (hu : u ≤ 1000) (hx : x ≤ 1000) (hk : k ≤ 4) :
    (1000 * u + x) * 1000 ^ k < U64 := by
  have h1 : 1000 * u + x ≤ 1000 * 1000 + 1000 := by omega
  have h2 : (1000 : Nat) ^ k ≤ 1000 ^ 4 := Nat.pow_le_pow_right (by norm_num) hk
  have h3 : (1000 * u + x) * 1000 ^ k ≤ (1000 * 1000 + 1000) * 1000 ^ 4 :=
    Nat.mul_le_mul h1 h2
  rw [U64]
  have : ((1000 * 1000 + 1000) * 1000 ^ 4 : Nat) < 2 ^ 64 := by norm_num
  omega

theorem M_lt_t1 (u x k : Nat) (hu : u ≤ 9) (hx : x ≤ 1000) (hk : k ≤ 5) :
    (1000 * u + x) * 1000 ^ k < U64 := by
  have h1 : 1000 * u + x ≤ 10000 := by omega
  have h2 : (1000 : Nat) ^ k ≤ 1000 ^ 5 := Nat.pow_le_pow_right (by norm_num) hk
  have h3 : (1000 * u + x) * 1000 ^ k ≤ 10000 * 1000 ^ 5 := Nat.mul_le_mul h1 h2
  rw [U64]
  have : (10000 * 1000 ^ 5 : Nat) < 2 ^ 64 := by norm_num
  omega

theorem M_lt_t2 (n u ms k f : Nat) (h : n < U64)
    (hu_def : u = n / 1000 ^ (k + 1)) (hnm : n / 1000 ^ k = 1000 * u + ms)
    (hk : k ≤ 5) (hu100 : u ≤ 99)
    (hf : 100 * f ≤ ms + 50) (hf10 : f ≤ 10) :
    (1000 * u + 100 * f) * 1000 ^ k < U64 := by
  by_cases hk4 : k ≤ 4
  · exact M_lt_low u (100 * f) k (by omega) (by omega) hk4
  · have hk5 : k = 5 := by omega
    subst hk5
    have hn' : n ≤ 2 ^ 64 - 1 := by rw [U64] at h; omega
    have hu18 : u ≤ 18 := by
      rw [hu_def]
      have h1 : n / 1000 ^ 6 ≤ (2 ^ 64 - 1) / 1000 ^ 6 := Nat.div_le_div_right hn'
      have h2 : ((2 ^ 64 - 1 : Nat)) / 1000 ^ 6 = 18 := by norm_num
      omega
    by_cases hu17 : u ≤ 17
    · have h1 : 1000 * u + 100 * f ≤ 18000 := by omega
      have h3 : (1000 * u + 100 * f) * 1000 ^ 5 ≤ 18000 * 1000 ^ 5 :=
        Nat.mul_le_mul_right _ h1
      rw [U64]
      have h4 : (18000 * 1000 ^ 5 : Nat) < 2 ^ 64 := by norm_num
      omega
    · have hu18' : u = 18 := by omega
      have hms : ms ≤ 446 := by
        have h1 : n / 1000 ^ 5 ≤ (2 ^ 64 - 1) / 1000 ^ 5 := Nat.div_le_div_right hn'
        have h2 : ((2 ^ 64 - 1 : Nat)) / 1000 ^ 5 = 18446 := by norm_num
        omega
      have h1 : 1000 * u + 100 * f ≤ 18400 := by omega
      have h3 : (1000 * u + 100 * f) * 1000 ^ 5 ≤ 18400 * 1000 ^ 5 :=
        Nat.mul_le_mul_right _ h1
      rw [U64]
      have h4 : (18400 * 1000 ^ 5 : Nat) < 2 ^ 64 := by norm_num
      omega

theorem tier3_k_le_4 (n k : Nat) (h : n < U64) (_hk2 : 1000 ^ (k + 1) ≤ n)
    (hu : 100 ≤ n / 1000 ^ (k + 1)) : k ≤ 4 := by
  have h100 : 100 * 1000 ^ (k + 1) ≤ n := by
    have := (Nat.le_div_iff_mul_le (by positivity : 0 < (1000 : Nat) ^ (k + 1))).mp hu
    omega
  by_contra hk
  push_neg at hk
  have h5 : (1000 : Nat) ^ 6 ≤ 1000 ^ (k + 1) :=
    Nat.pow_le_pow_right (by norm_num) (by omega)
  have h6 : 100 * 1000 ^ 6 ≤ 100 * 1000 ^ (k + 1) := by omega
  rw [U64] at h
  have : (100 * 1000 ^ 6 : Nat) = 100000000000000000000 := by norm_num
  omega

/-- Claim C3: parsing the displayed string of any u64 value succeeds, the
result is within the rounding error of three significant digits (at most
n / 100 away from n), and is exactly n for values below 1000. -/
theorem claim3_roundtrip_bound (n : Nat) (h : n < U64) :
    ∃ m, from_str (toDisplayBytes n) = .ok (.val m) ∧
      m ≤ n + n / 100 ∧ n ≤ m + n / 100 ∧ (n < 1000 → m = n) := by
  by_cases hn1000 : n < 1000
  · refine ⟨n, ?_, by omega, by omega, fun _ => rfl⟩
    rw [toDisplayBytes, if_pos hn1000]
    exact parse_small n h
  · obtain ⟨k, hk1, hk2, hk3⟩ := divLoop_spec n (by omega) 0 true
    rw [Nat.zero_add] at hk1
    set u := n / 1000 ^ (k + 1) with hu_def
    set ms := n / 1000 ^ k % 1000 with hms_def
    set exb := (true && (n % 1000 ^ k == 0)) with hexb_def
    set r := n % 1000 ^ k with hr_def
    have hu1 : 1 ≤ u := by
      rw [hu_def]
      exact (Nat.one_le_div_iff (by positivity)).mpr hk2
    have hu1000 : u < 1000 := hk3
    have hms1000 : ms < 1000 := by
      rw [hms_def]
      exact Nat.mod_lt _ (by norm_num)
    have hr1000 : r < 1000 ^ k := by
      rw [hr_def]
      exact Nat.mod_lt _ (by positivity)
    have hk5 : k ≤ 5 := by
      by_contra hk
      push_neg at hk
      have h7 : (1000 : Nat) ^ 7 ≤ 1000 ^ (k + 1) :=
        Nat.pow_le_pow_right (by norm_num) (by omega)
      have h8 := le_trans h7 hk2
      rw [U64] at h
      have h9 : (1000 : Nat) ^ 7 = 1000000000000000000000 := by norm_num
      omega
    have he1 : n / 1000 ^ k = 1000 * u + ms := by
      have e0 : n / 1000 ^ (k + 1) = n / 1000 ^ k / 1000 := by
        rw [Nat.div_div_eq_div_mul, ← pow_succ]
      rw [hu_def, hms_def, e0]
      exact (Nat.div_add_mod (n / 1000 ^ k) 1000).symm
    have hn_eq : n = (1000 * u + ms) * 1000 ^ k + r := by
      calc n = 1000 ^ k * (n / 1000 ^ k) + n % 1000 ^ k :=
            (Nat.div_add_mod n (1000 ^ k)).symm
        _ = (1000 * u + ms) * 1000 ^ k + r := by rw [he1, hr_def]; ring
    rw [toDisplayBytes_big n k u ms exb hn1000 hk1]
    by_cases ht1 : u < 10
    · rw [if_pos ht1]
      by_cases hc : 5 < ms % 10 ∨ (ms % 10 = 5 ∧ (ms / 10 % 2 = 1 ∨ exb = false))
      · rw [if_pos hc]
        have hrem5 : 5 ≤ ms % 10 := by rcases hc with h' | ⟨h', _⟩ <;> omega
        have hbounds := roundtrip_bounds n u ms k r (10 * (ms / 10 + 1)) 5 hn_eq hr1000
          (by omega) (by omega) (by omega)
        have hMlt : (1000 * u + 10 * (ms / 10 + 1)) * 1000 ^ k < U64 :=
          M_lt_t1 u _ k (by omega) (by omega) hk5
        by_cases hcarry : ms / 10 + 1 = 100
        · rw [if_pos hcarry]
          by_cases hten : u + 1 = 10
          · rw [if_pos hten]
            refine ⟨(1000 * u + 10 * (ms / 10 + 1)) * 1000 ^ k, ?_, hbounds.1, hbounds.2,
              fun hcon => absurd hcon hn1000⟩
            have harith : (1000 * 10 + 100 * 0) = 1000 * u + 10 * (ms / 10 + 1) := by
              omega
            have hps := parse_shape2 10 0 k (by omega) hk5 (by rw [harith]; exact hMlt)
            rw [harith] at hps
            exact hps
          · rw [if_neg hten]
            refine ⟨(1000 * u + 10 * (ms / 10 + 1)) * 1000 ^ k, ?_, hbounds.1, hbounds.2,
              fun hcon => absurd hcon hn1000⟩
            have harith : (1000 * (u + 1) + 10 * 0) = 1000 * u + 10 * (ms / 10 + 1) := by
              omega
            have hps := parse_shape1 (u + 1) 0 k (by omega) hk5 (by rw [harith]; exact hMlt)
            rw [harith] at hps
            rw [show (natRepr (u + 1) ++ 46 :: pad2 0) ++ [32, pfxByte k, 66]
              = natRepr (u + 1) ++ [46] ++ pad2 0 ++ [32, pfxByte k, 66] by simp] at hps
            exact hps
        · rw [if_neg hcarry]
          refine ⟨(1000 * u + 10 * (ms / 10 + 1)) * 1000 ^ k, ?_, hbounds.1, hbounds.2,
            fun hcon => absurd hcon hn1000⟩
          have hps := parse_shape1 u (ms / 10 + 1) k (by omega) hk5 hMlt
          rw [show (natRepr u ++ 46 :: pad2 (ms / 10 + 1)) ++ [32, pfxByte k, 66]
            = natRepr u ++ [46] ++ pad2 (ms / 10 + 1) ++ [32, pfxByte k, 66] by simp] at hps
          exact hps
      · rw [if_neg hc]
        push_neg at hc
        have hrem5 : ms % 10 ≤ 5 := by omega
        have hbounds := roundtrip_bounds n u ms k r (10 * (ms / 10)) 5 hn_eq hr1000
          (by omega) (by omega) (by omega)
        have hMlt : (1000 * u + 10 * (ms / 10)) * 1000 ^ k < U64 :=
          M_lt_t1 u _ k (by omega) (by omega) hk5
        refine ⟨(1000 * u + 10 * (ms / 10)) * 1000 ^ k, ?_, hbounds.1, hbounds.2,
          fun hcon => absurd hcon hn1000⟩
        have hps := parse_shape1 u (ms / 10) k (by omega) hk5 hMlt
        rw [show (natRepr u ++ 46 :: pad2 (ms / 10)) ++ [32, pfxByte k, 66]
          = natRepr u ++ [46] ++ pad2 (ms / 10) ++ [32, pfxByte k, 66] by simp] at hps
        exact hps
    · rw [if_neg ht1]
      by_cases ht2 : u < 100
      · rw [if_pos ht2]
        by_cases hc : 50 < ms % 100 ∨ (ms % 100 = 50 ∧ (ms / 100 % 2 = 1 ∨ exb = false))
        · rw [if_pos hc]
          have hrem50 : 50 ≤ ms % 100 := by rcases hc with h' | ⟨h', _⟩ <;> omega
          have hbounds := roundtrip_bounds n u ms k r (100 * (ms / 100 + 1)) 50 hn_eq hr1000
            (by omega) (by omega) (by omega)
          have hMlt : (1000 * u + 100 * (ms / 100 + 1)) * 1000 ^ k < U64 :=
            M_lt_t2 n u ms k (ms / 100 + 1) h hu_def he1 hk5 (by omega) (by omega) (by omega)
          by_cases hcarry : ms / 100 + 1 = 10
          · rw [if_pos hcarry]
            by_cases hhund : u + 1 = 100
            · rw [if_pos hhund]
              refine ⟨(1000 * u + 100 * (ms / 100 + 1)) * 1000 ^ k, ?_, hbounds.1, hbounds.2,
                fun hcon => absurd hcon hn1000⟩
              have harith : 100 * 1000 ^ (k + 1) = (1000 * u + 100 * (ms / 100 + 1)) * 1000 ^ k := by
                have hu99 : u = 99 := by omega
                rw [hu99, hcarry, pow_succ]
                ring
              have hps := parse_shape3 100 k hk5 (by rw [harith]; exact hMlt)
              rw [harith] at hps
              exact hps
            · rw [if_neg hhund]
              refine ⟨(1000 * u + 100 * (ms / 100 + 1)) * 1000 ^ k, ?_, hbounds.1, hbounds.2,
                fun hcon => absurd hcon hn1000⟩
              have harith : (1000 * (u + 1) + 100 * 0) = 1000 * u + 100 * (ms / 100 + 1) := by
                omega
              have hps := parse_shape2 (u + 1) 0 k (by omega) hk5 (by rw [harith]; exact hMlt)
              rw [harith] at hps
              rw [show (natRepr (u + 1) ++ 46 :: natRepr 0) ++ [32, pfxByte k, 66]
                = natRepr (u + 1) ++ [46, 48, 32, pfxByte k, 66] by
                  rw [natRepr_one 0 (by norm_num)]
                  simp] at hps
              exact hps
          · rw [if_neg hcarry]
            refine ⟨(1000 * u + 100 * (ms / 100 + 1)) * 1000 ^ k, ?_, hbounds.1, hbounds.2,
              fun hcon => absurd hcon hn1000⟩
            have hps := parse_shape2 u (ms / 100 + 1) k (by omega) hk5 hMlt
            rw [show (natRepr u ++ 46 :: natRepr (ms / 100 + 1)) ++ [32, pfxByte k, 66]
              = natRepr u ++ [46] ++ natRepr (ms / 100 + 1) ++ [32, pfxByte k, 66] by
                simp] at hps
            exact hps
        · rw [if_neg hc]
          push_neg at hc
          have hrem50 : ms % 100 ≤ 50 := by omega
          have hbounds := roundtrip_bounds n u ms k r (100 * (ms / 100)) 50 hn_eq hr1000
            (by omega) (by omega) (by omega)
          have hMlt : (1000 * u + 100 * (ms / 100)) * 1000 ^ k < U64 :=
            M_lt_t2 n u ms k (ms / 100) h hu_def he1 hk5 (by omega) (by omega) (by omega)
          refine ⟨(1000 * u + 100 * (ms / 100)) * 1000 ^ k, ?_, hbounds.1, hbounds.2,
            fun hcon => absurd hcon hn1000⟩
          have hps := parse_shape2 u (ms / 100) k (by omega) hk5 hMlt
          rw [show (natRepr u ++ 46 :: natRepr (ms / 100)) ++ [32, pfxByte k, 66]
            = natRepr u ++ [46] ++ natRepr (ms / 100) ++ [32, pfxByte k, 66] by simp] at hps
          exact hps
      · rw [if_neg ht2]
        have hk4 : k ≤ 4 := tier3_k_le_4 n k h hk2 (by rw [← hu_def]; omega)
        by_cases hcond : 500 < ms ∨ (ms = 500 ∧ (u % 2 = 1 ∨ exb = false))
        · have hms500 : 500 ≤ ms := by rcases hcond with h' | ⟨h', _⟩ <;> omega
          rw [if_pos hcond]
          have hbounds := roundtrip_bounds n u ms k r 1000 500 hn_eq hr1000
            (by omega) (by omega) (by omega)
          by_cases hpromo : 1000 ≤ u + 1
          · rw [if_pos hpromo]
            refine ⟨(1000 * u + 1000) * 1000 ^ k, ?_, hbounds.1, hbounds.2,
              fun hcon => absurd hcon hn1000⟩
            have hu999 : u = 999 := by omega
            have harith : (1000 * 1 + 10 * 0) * 1000 ^ (k + 1)
                = (1000 * u + 1000) * 1000 ^ k := by
              rw [hu999, pow_succ]
              ring
            have hMlt : (1000 * 1 + 10 * 0) * 1000 ^ (k + 1) < U64 := by
              rw [harith, hu999]
              exact M_lt_low 999 1000 k (by omega) (by omega) hk4
            have hps := parse_shape1 1 0 (k + 1) (by omega) (by omega) hMlt
            rw [harith] at hps
            exact hps
          · rw [if_neg hpromo]
            refine ⟨(1000 * u + 1000) * 1000 ^ k, ?_, hbounds.1, hbounds.2,
              fun hcon => absurd hcon hn1000⟩
            have harith : (u + 1) * 1000 ^ (k + 1) = (1000 * u + 1000) * 1000 ^ k := by
              rw [pow_succ]
              ring
            have hMlt : (u + 1) * 1000 ^ (k + 1) < U64 := by
              rw [harith]
              exact M_lt_low u 1000 k (by omega) (by omega) hk4
            have hps := parse_shape3 (u + 1) k hk5 hMlt
            rw [harith] at hps
            exact hps
        · rw [if_neg hcond]
          push_neg at hcond
          have hms500 : ms ≤ 500 := by omega
          rw [if_neg (by omega : ¬ 1000 ≤ u)]
          have hbounds := roundtrip_bounds n u ms k r 0 500 hn_eq hr1000
            (by omega) (by omega) (by omega)
          refine ⟨(1000 * u + 0) * 1000 ^ k, ?_, hbounds.1, hbounds.2,
            fun hcon => absurd hcon hn1000⟩
          have harith : u * 1000 ^ (k + 1) = (1000 * u + 0) * 1000 ^ k := by
            rw [pow_succ]
            ring
          have hMlt : u * 1000 ^ (k + 1) < U64 := by
            rw [harith]
            exact M_lt_low u 0 k (by omega) (by omega) hk4
          have hps := parse_shape3 u k hk5 hMlt
          rw [harith] at hps
          exact hps

/-- Witness for C3 at a concrete value whose display rounds. -/
theorem claim3_witness :
    ∃ m, from_str (toDisplayBytes 2335) = .ok (.val m) ∧
      m ≤ 2335 + 2335 / 100 ∧ 2335 ≤ m + 2335 / 100 ∧ (2335 < 1000 → m = 2335) :=
  claim3_roundtrip_bound 2335 (by decide)

/-- Witness for C6 at the maximum u64 value. -/
theorem claim6_witness :
    (divLoop 0 (2 ^ 64 - 1) true).1 ≤ 5 ∧
    (100 ≤ (divLoop 0 (2 ^ 64 - 1) true).2.1 →
      (divLoop 0 (2 ^ 64 - 1) true).1 + 1 ≤ 5) ∧
    PREFIXES.length = 6 :=
  claim6_prefix_index_bounds (2 ^ 64 - 1) (by decide)

end ByteSizeVerif
